import Mathlib

/-!
Verification of the PDF assignment parser (`parser.py`).

The development shallowly embeds the parser over `List Char` page texts:

* character classes mirror the ASCII behaviour of Python's `re` classes
  (`\w`, `\s`, `\d`) and of `str.lower` / `str.strip` on the ASCII inputs
  the parser is used with;
* every regular expression of the source is embedded as an executable
  matcher with Python's leftmost-position, first-alternative, greedy
  (with the backtracking that the concrete patterns can exercise)
  semantics;
* the PyMuPDF document is modelled as an oracle structure `PDoc`
  (page count, fallible page-text extraction, optional bounding-box
  lookup), matching the external interface the parser consumes;
* floating point scores are modelled with rational numbers.
-/

set_option maxHeartbeats 1000000
set_option maxRecDepth 4000

/-! ## Character primitives -/

def isDigitCh (c : Char) : Bool := '0' ≤ c && c ≤ '9'

def isLowerAlphaCh (c : Char) : Bool := 'a' ≤ c && c ≤ 'z'

def isUpperAlphaCh (c : Char) : Bool := 'A' ≤ c && c ≤ 'Z'

def isAlphaCh (c : Char) : Bool := isLowerAlphaCh c || isUpperAlphaCh c

/-- Python regex `\w` restricted to ASCII. -/
def isWordCh (c : Char) : Bool := isAlphaCh c || isDigitCh c || c == '_'

/-- Python regex `\s` (the ASCII part). -/
def isSpaceCh (c : Char) : Bool :=
  c == ' ' || c == '\t' || c == '\n' || c == '\r' || c == '\x0b' || c == '\x0c'

/-- ASCII `str.lower` on one character. -/
def lowerCh (c : Char) : Char :=
  if isUpperAlphaCh c then Char.ofNat (c.toNat + 32) else c

/-! ## Substring machinery (Python's `in` operator) -/

/-- Does `v` start with `u`? -/
def startsW : List Char → List Char → Bool
  | [], _ => true
  | _ :: _, [] => false
  | a :: as, b :: bs => a == b && startsW as bs

/-- Python's substring test `u in w`. -/
def hasSub (u : List Char) : List Char → Bool
  | [] => u.isEmpty
  | c :: cs => startsW u (c :: cs) || hasSub u cs

/-! ## Python `str.strip` -/

/-- Python `str.strip()` (whitespace at both ends removed). -/
def pyStrip (w : List Char) : List Char :=
  ((w.dropWhile isSpaceCh).reverse.dropWhile isSpaceCh).reverse

/-! ## Matcher infrastructure

A matcher receives the character just before the current position (needed
for `\b` word boundaries; `none` at the start of the text) and the
remaining input, and returns the matched chunk plus the rest on success.
-/

def Mtch : Type := Option Char → List Char → Option (List Char × List Char)

def optWordB : Option Char → Bool
  | some c => isWordCh c
  | none => false

def headWordB (cs : List Char) : Bool :=
  match cs with
  | c :: _ => isWordCh c
  | [] => false

/-- Case-insensitive literal: `w` is the lower-case pattern text. -/
def ciTake : List Char → List Char → Option (List Char × List Char)
  | [], cs => some ([], cs)
  | _ :: _, [] => none
  | p :: ps, c :: cs =>
    if lowerCh c = p then
      match ciTake ps cs with
      | some (m, r) => some (c :: m, r)
      | none => none
    else none

/-- Word-bounded one-word keyword: `\bWORD\b`, case-insensitive. -/
def kwOne (w : List Char) : Mtch := fun prev cs =>
  if optWordB prev then none else
  match ciTake w cs with
  | some (m, r) => if headWordB r then none else some (m, r)
  | none => none

/-- Word-bounded two-word keyword: `\bW1\s+W2\b`, case-insensitive. -/
def kwTwo (w1 w2 : List Char) : Mtch := fun prev cs =>
  if optWordB prev then none else
  match ciTake w1 cs with
  | some (m1, r1) =>
    let sp := r1.takeWhile isSpaceCh
    let r2 := r1.dropWhile isSpaceCh
    if sp.isEmpty then none else
    match ciTake w2 r2 with
    | some (m2, r3) => if headWordB r3 then none else some (m1 ++ (sp ++ m2), r3)
    | none => none
  | none => none

/-- Ordered alternation: first matching alternative wins (Python `|`). -/
def altM : List Mtch → Mtch
  | [], _, _ => none
  | M :: Ms, prev, cs =>
    match M prev cs with
    | some x => some x
    | none => altM Ms prev cs

/-- Non-overlapping scan from the left: Python `finditer`.  Returns
`(start-offset, matched text)` pairs; after a match the scan resumes at
the match end, otherwise it advances one character. -/
def finditAux (M : Mtch) (prev : Option Char) (cs : List Char) (pos : Nat) :
    List (Nat × List Char) :=
  match cs with
  | [] => []
  | c :: cs' =>
    match M prev (c :: cs') with
    | some (m, _) =>
      if _h : m.length = 0 then finditAux M (some c) cs' (pos + 1)
      else (pos, m) :: finditAux M m.getLast? ((c :: cs').drop m.length) (pos + m.length)
    | none => finditAux M (some c) cs' (pos + 1)
termination_by cs.length
decreasing_by
  all_goals simp only [List.length_cons, List.length_drop]
  all_goals omega

def finditer (M : Mtch) (text : List Char) : List (Nat × List Char) :=
  finditAux M none text 0

/-- Position predicates for boolean `re.search` patterns. -/
def PosPred : Type := Option Char → List Char → Bool

def searchAux (P : PosPred) : Option Char → List Char → Bool
  | _, [] => false
  | prev, c :: cs => P prev (c :: cs) || searchAux P (some c) cs

/-- Python `re.search` as a boolean: does the pattern match at some position? -/
def searchPos (P : PosPred) (text : List Char) : Bool := searchAux P none text

/-! ## Pattern literals (lower-cased pattern text) -/

def litAssignment : List Char := "assignment".toList
def litAssignments : List Char := "assignments".toList
def litDue : List Char := "due".toList
def litDate : List Char := "date".toList
def litHomework : List Char := "homework".toList
def litProject : List Char := "project".toList
def litExam : List Char := "exam".toList
def litFinal : List Char := "final".toList
def litMidterm : List Char := "midterm".toList
def litQuiz : List Char := "quiz".toList
def litLab : List Char := "lab".toList
def litSubmit : List Char := "submit".toList
def litComplete : List Char := "complete".toList
def litTurn : List Char := "turn".toList
def litIn : List Char := "in".toList
def litHand : List Char := "hand".toList
def litOut : List Char := "out".toList
def litAssign : List Char := "assign".toList
def litHw : List Char := "hw".toList
def litOf : List Char := "of".toList
def litGrade : List Char := "grade".toList
def litReading : List Char := "reading".toList
def litScore : List Char := "score".toList
def litPoint : List Char := "point".toList
def litPt : List Char := "pt".toList
def litWorth : List Char := "worth".toList
def litPercent : List Char := "percent".toList
def litSchedule : List Char := "schedule".toList
def litCalendar : List Char := "calendar".toList
def litListWord : List Char := "list".toList
def litOverview : List Char := "overview".toList
def litSummary : List Char := "summary".toList

def litJanuary : List Char := "january".toList
def litFebruary : List Char := "february".toList
def litMarch : List Char := "march".toList
def litApril : List Char := "april".toList
def litMay : List Char := "may".toList
def litJune : List Char := "june".toList
def litJuly : List Char := "july".toList
def litAugust : List Char := "august".toList
def litSeptember : List Char := "september".toList
def litOctober : List Char := "october".toList
def litNovember : List Char := "november".toList
def litDecember : List Char := "december".toList

def litJan : List Char := "jan".toList
def litFeb : List Char := "feb".toList
def litMar : List Char := "mar".toList
def litApr : List Char := "apr".toList
def litJun : List Char := "jun".toList
def litJul : List Char := "jul".toList
def litAug : List Char := "aug".toList
def litSep : List Char := "sep".toList
def litOct : List Char := "oct".toList
def litNov : List Char := "nov".toList
def litDec : List Char := "dec".toList

def litMonday : List Char := "monday".toList
def litTuesday : List Char := "tuesday".toList
def litWednesday : List Char := "wednesday".toList
def litThursday : List Char := "thursday".toList
def litFriday : List Char := "friday".toList
def litSaturday : List Char := "saturday".toList
def litSunday : List Char := "sunday".toList

def monthsFull : List (List Char) :=
  [litJanuary, litFebruary, litMarch, litApril, litMay, litJune, litJuly,
   litAugust, litSeptember, litOctober, litNovember, litDecember]

def monthsAbbrev : List (List Char) :=
  [litJan, litFeb, litMar, litApr, litMay, litJun, litJul, litAug, litSep,
   litOct, litNov, litDec]

def weekdays : List (List Char) :=
  [litMonday, litTuesday, litWednesday, litThursday, litFriday, litSaturday,
   litSunday]

/-! ## The date patterns (source lines 46-59) -/

/-- Ordered alternation of case-insensitive literals with a continuation,
modelling the backtracking of `(?:A|B|...)rest`. -/
def tryLits (ws : List (List Char)) (cs : List Char)
    (k : List Char → List Char → Option (List Char × List Char)) :
    Option (List Char × List Char) :=
  match ws with
  | [] => none
  | w :: rest =>
    match ciTake w cs with
    | some (mm, r1) =>
      match k mm r1 with
      | some res => some res
      | none => tryLits rest cs k
    | none => tryLits rest cs k

/-- Optional single character (`,?`, `\.?`). -/
def optCh (ch : Char) (cs : List Char) : List Char × List Char :=
  match cs with
  | c :: r => if c == ch then ([c], r) else ([], cs)
  | [] => ([], [])

/-- Optional case-insensitive `s?` of the plural patterns. -/
def optS (cs : List Char) : List Char × List Char :=
  match cs with
  | c :: r => if lowerCh c == 's' then ([c], r) else ([], cs)
  | [] => ([], [])

/-- Source `MM/DD/YYYY` and `MM-DD-YYYY`: `\b\d{1,2}[/ or -]\d{1,2}[/ or -]\d{2,4}\b`
(the delimiter class holds a slash and a dash). -/
def dateP1 : Mtch := fun prev cs =>
  if optWordB prev then none else
  let d1 := cs.takeWhile isDigitCh
  let r1 := cs.dropWhile isDigitCh
  if d1.length < 1 || 2 < d1.length then none else
  match r1 with
  | c1 :: r2 =>
    if c1 == '/' || c1 == '-' then
      let d2 := r2.takeWhile isDigitCh
      let r3 := r2.dropWhile isDigitCh
      if d2.length < 1 || 2 < d2.length then none else
      match r3 with
      | c2 :: r4 =>
        if c2 == '/' || c2 == '-' then
          let d3 := r4.takeWhile isDigitCh
          let r5 := r4.dropWhile isDigitCh
          if d3.length < 2 || 4 < d3.length || headWordB r5 then none else
          some (d1 ++ c1 :: (d2 ++ c2 :: d3), r5)
        else none
      | [] => none
    else none
  | [] => none

/-- Tail `\s+\d{4}\b`, prepending the already-matched prefix. -/
def dateTailYear (pre r : List Char) : Option (List Char × List Char) :=
  let sp := r.takeWhile isSpaceCh
  let r1 := r.dropWhile isSpaceCh
  if sp.isEmpty then none else
  let d := r1.takeWhile isDigitCh
  let r2 := r1.dropWhile isDigitCh
  if d.length == 4 && !headWordB r2 then some (pre ++ (sp ++ d), r2) else none

/-- Tail `\s+\d{1,2},?\s+\d{4}\b`, prepending the already-matched prefix. -/
def dateTailDayYear (pre r : List Char) : Option (List Char × List Char) :=
  let sp1 := r.takeWhile isSpaceCh
  let r2 := r.dropWhile isSpaceCh
  if sp1.isEmpty then none else
  let d1 := r2.takeWhile isDigitCh
  let r3 := r2.dropWhile isDigitCh
  if d1.length < 1 || 2 < d1.length then none else
  let cm := optCh ',' r3
  dateTailYear (pre ++ (sp1 ++ (d1 ++ cm.1))) cm.2

/-- Source `Month DD, YYYY`: `\b(?:January|...)\s+\d{1,2},?\s+\d{4}\b`. -/
def dateP2 : Mtch := fun prev cs =>
  if optWordB prev then none else
  tryLits monthsFull cs dateTailDayYear

/-- Source `Mon DD, YYYY`: `\b(?:Jan|...)\.?\s+\d{1,2},?\s+\d{4}\b`. -/
def dateP3 : Mtch := fun prev cs =>
  if optWordB prev then none else
  tryLits monthsAbbrev cs (fun mm r1 =>
    let dot := optCh '.' r1
    dateTailDayYear (mm ++ dot.1) dot.2)

/-- Source `DD Month YYYY`: `\b\d{1,2}\s+(?:January|...)\s+\d{4}\b`. -/
def dateP4 : Mtch := fun prev cs =>
  if optWordB prev then none else
  let d1 := cs.takeWhile isDigitCh
  let r1 := cs.dropWhile isDigitCh
  if d1.length < 1 || 2 < d1.length then none else
  let sp1 := r1.takeWhile isSpaceCh
  let r2 := r1.dropWhile isSpaceCh
  if sp1.isEmpty then none else
  tryLits monthsFull r2 (fun mm r3 => dateTailYear (d1 ++ (sp1 ++ mm)) r3)

/-- ISO `YYYY-MM-DD`: `\b\d{4}-\d{2}-\d{2}\b`. -/
def dateP5 : Mtch := fun prev cs =>
  if optWordB prev then none else
  let d1 := cs.takeWhile isDigitCh
  let r1 := cs.dropWhile isDigitCh
  if d1.length == 4 then
    match r1 with
    | c1 :: r2 =>
      if c1 == '-' then
        let d2 := r2.takeWhile isDigitCh
        let r3 := r2.dropWhile isDigitCh
        if d2.length == 2 then
          match r3 with
          | c2 :: r4 =>
            if c2 == '-' then
              let d3 := r4.takeWhile isDigitCh
              let r5 := r4.dropWhile isDigitCh
              if d3.length == 2 && !headWordB r5 then
                some (d1 ++ c1 :: (d2 ++ c2 :: d3), r5)
              else none
            else none
          | [] => none
        else none
      else none
    | [] => none
  else none

/-- Source `Weekday, Month DD, YYYY`:
`\b(?:Monday|...),?\s+(?:January|...)\s+\d{1,2},?\s+\d{4}\b`. -/
def dateP6 : Mtch := fun prev cs =>
  if optWordB prev then none else
  tryLits weekdays cs (fun wd r1 =>
    let cm := optCh ',' r1
    let sp1 := cm.2.takeWhile isSpaceCh
    let r2 := cm.2.dropWhile isSpaceCh
    if sp1.isEmpty then none else
    tryLits monthsFull r2 (fun mm r3 =>
      dateTailDayYear (wd ++ (cm.1 ++ (sp1 ++ mm))) r3))

/-- Source `combined_date_pattern`: alternation of the six date patterns in
source order. -/
def dateM : Mtch := altM [dateP1, dateP2, dateP3, dateP4, dateP5, dateP6]

/-! ## Assignment keyword pattern (source lines 62-84) -/

def assignM : Mtch :=
  altM [kwOne litAssignment, kwOne litAssignments, kwTwo litDue litDate,
        kwOne litDue, kwOne litHomework, kwOne litProject, kwOne litExam,
        kwOne litFinal, kwOne litMidterm, kwOne litQuiz, kwOne litLab]

/-! ## Positive / negative indicator patterns (source lines 87-124) -/

/-- Action verbs: `\b(?:submit|complete|turn\s+in|hand\s+in|due|hand\s+out|assign)\b`. -/
def actionVerbM : Mtch :=
  altM [kwOne litSubmit, kwOne litComplete, kwTwo litTurn litIn,
        kwTwo litHand litIn, kwOne litDue, kwTwo litHand litOut,
        kwOne litAssign]

/-- Optional one char of `[#:]`. -/
def optPound (cs : List Char) : List Char × List Char :=
  match cs with
  | c :: r => if c == '#' || c == ':' then ([c], r) else ([], cs)
  | [] => ([], [])

def assignNumKws : List (List Char) :=
  [litAssignment, litHomework, litHw, litProject, litExam, litQuiz, litLab]

/-- Source `assignment_number`: `\b(?:assignment|homework|hw|project|exam|quiz|lab)\s*[#:]?\s*\d+\b`. -/
def assignmentNumberAt : PosPred := fun prev cs =>
  !optWordB prev &&
  (tryLits assignNumKws cs (fun kw r1 =>
    let r2 := r1.dropWhile isSpaceCh
    let pc := optPound r2
    let r4 := pc.2.dropWhile isSpaceCh
    let d := r4.takeWhile isDigitCh
    let r5 := r4.dropWhile isDigitCh
    if !d.isEmpty && !headWordB r5 then some (kw, r5) else none)).isSome

def searchAssignmentNumber (text : List Char) : Bool :=
  searchPos assignmentNumberAt text

/-- A word alternative that just needs a trailing `\b`. -/
def endWord (w cs : List Char) : Bool :=
  match ciTake w cs with
  | some (_, r) => !headWordB r
  | none => false

/-- A word alternative with optional `s?` and a trailing `\b`. -/
def endWordS (w cs : List Char) : Bool :=
  match ciTake w cs with
  | some (_, r) =>
    let s := optS r
    !headWordB s.2
  | none => false

/-- Source `point_values`: `\b(?:points?|pts?|worth|percent|%|grade)\b`. -/
def pointValuesAt : PosPred := fun prev cs =>
  (!optWordB prev &&
    (endWordS litPoint cs || endWordS litPt cs || endWord litWorth cs ||
     endWord litPercent cs || endWord litGrade cs)) ||
  (optWordB prev &&
    (match cs with
     | c :: r => c == '%' && headWordB r
     | [] => false))

def searchPointValues (text : List Char) : Bool := searchPos pointValuesAt text

def capTitleKws : List (List Char) :=
  [litAssignment, litHomework, litProject, litExam, litQuiz, litLab]

/-- Source `capitalized_title`:
`\b(?:Assignment|Homework|Project|Exam|Quiz|Lab)\s+[A-Z][A-Za-z\s]+` with
`re.IGNORECASE` (so `[A-Z]` accepts any ASCII letter). -/
def capitalizedTitleAt : PosPred := fun prev cs =>
  !optWordB prev &&
  (tryLits capTitleKws cs (fun kw r1 =>
    let sp := r1.takeWhile isSpaceCh
    let r2 := r1.dropWhile isSpaceCh
    if sp.isEmpty then none else
    match r2 with
    | c1 :: r3 =>
      if isAlphaCh c1 then
        match r3 with
        | c2 :: r4 =>
          if isAlphaCh c2 || isSpaceCh c2 then some (kw, r4) else none
        | [] => none
      else none
    | [] => none)).isSome

def searchCapitalizedTitle (text : List Char) : Bool :=
  searchPos capitalizedTitleAt text

/-- Characters of the `list_format` class `[•\-\*\d+\.]`. -/
def isListCh (c : Char) : Bool :=
  c == '•' || c == '-' || c == '*' || isDigitCh c || c == '+' || c == '.'

def listHeadB (cs : List Char) : Bool :=
  match cs.dropWhile isSpaceCh with
  | c :: _ => isListCh c
  | [] => false

def listFormatAux : List Char → Bool
  | [] => false
  | c :: cs => (c == '\n' && listHeadB cs) || listFormatAux cs

/-- Source `list_format`: `^[\s]*[•\-\*\d+\.]` with `re.MULTILINE` (`^` matches at
the start of the text and right after every newline). -/
def searchListFormat (cs : List Char) : Bool := listHeadB cs || listFormatAux cs

/-- Source `assignment_of`: `\bassignment\s+of\s+(?:grades?|readings?|scores?|points?)\b`. -/
def assignmentOfAt : PosPred := fun prev cs =>
  !optWordB prev &&
  (match ciTake litAssignment cs with
   | some (_, r1) =>
     let sp1 := r1.takeWhile isSpaceCh
     let r2 := r1.dropWhile isSpaceCh
     if sp1.isEmpty then false else
     match ciTake litOf r2 with
     | some (_, r3) =>
       let sp2 := r3.takeWhile isSpaceCh
       let r4 := r3.dropWhile isSpaceCh
       if sp2.isEmpty then false else
       endWordS litGrade r4 || endWordS litReading r4 ||
       endWordS litScore r4 || endWordS litPoint r4
     | none => false
   | none => false)

def searchAssignmentOf (text : List Char) : Bool := searchPos assignmentOfAt text

/-- Source `reading_assignment`: `\breading\s+assignment\b`. -/
def readingAssignmentAt : PosPred := fun prev cs =>
  !optWordB prev &&
  (match ciTake litReading cs with
   | some (_, r1) =>
     let sp := r1.takeWhile isSpaceCh
     let r2 := r1.dropWhile isSpaceCh
     if sp.isEmpty then false else
     match ciTake litAssignment r2 with
     | some (_, r3) => !headWordB r3
     | none => false
   | none => false)

def searchReadingAssignment (text : List Char) : Bool :=
  searchPos readingAssignmentAt text

/-- Source `general_description`: `\bassignment\s+(?:schedule|calendar|list|overview|summary)\b`. -/
def generalDescriptionAt : PosPred := fun prev cs =>
  !optWordB prev &&
  (match ciTake litAssignment cs with
   | some (_, r1) =>
     let sp := r1.takeWhile isSpaceCh
     let r2 := r1.dropWhile isSpaceCh
     if sp.isEmpty then false else
     endWord litSchedule r2 || endWord litCalendar r2 ||
     endWord litListWord r2 || endWord litOverview r2 ||
     endWord litSummary r2
   | none => false)

def searchGeneralDescription (text : List Char) : Bool :=
  searchPos generalDescriptionAt text

/-- Source `combined_date_pattern.search` as a boolean. -/
def dateSearchAt : PosPred := fun prev cs => (dateM prev cs).isSome

def searchDatePattern (text : List Char) : Bool := searchPos dateSearchAt text

/-! ## Data model -/

/-- The `AssignmentMatch` dataclass.  Bounding-box coordinates are modelled
with rationals. -/
structure AMatch where
  text : List Char
  page_number : Nat
  context : List Char
  match_type : String
  position : ℚ × ℚ × ℚ × ℚ
deriving DecidableEq, Repr

/-- Constructor parameters of `PDFAssignmentParser`. -/
structure ParserConfig where
  context_window : Nat
  assignment_threshold : ℚ
deriving DecidableEq, Repr

/-- The PyMuPDF document, modelled as the external collaborator the parser
consumes: a page count, a fallible page-text extraction (`page.get_text()`
may raise), and a bounding-box lookup whose failure (no hit, or any raised
error, both swallowed by `_get_bounding_box`) is `none`. -/
structure PDoc where
  numPages : Nat
  getText : Nat → Except String (List Char)
  searchFor : Nat → List Char → Option (ℚ × ℚ × ℚ × ℚ)

/-- Result dictionary of `extract_assignments_and_dates`. -/
structure ExtractOutput where
  assignments : List AMatch
  dates : List AMatch
  combined : List AMatch
deriving DecidableEq, Repr

/-- Entry of the `get_assignments_with_confidence` result list. -/
structure ScoredAssignment where
  text : List Char
  page : Nat
  context : List Char
  is_real : Bool
  confidence : ℚ
  position : ℚ × ℚ × ℚ × ℚ
deriving DecidableEq, Repr

/-! ## `_extract_context` (source lines 160-174) -/

/-- Python slice `text[a:b]` for `0 ≤ a ≤ b` (as used by the parser). -/
def pySlice (text : List Char) (a b : Nat) : List Char :=
  (text.drop a).take (b - a)

/-- Source `_extract_context`: clamped window of `context_window` characters on each
side, stripped. -/
def extractContext (W : Nat) (text : List Char) (ms me : Nat) : List Char :=
  pyStrip (pySlice text (ms - W) (min text.length (me + W)))

/-! ## `_is_real_assignment` (source lines 177-259)

The raw score is the sum of independently evaluated signals, mirroring the
sequential `score +=` statements of the source.  Weights are the
`scoring_weights` table.
-/

def assignmentNumberScore (context : List Char) : ℚ :=
  if searchAssignmentNumber context then 3/10 else 0

/-- Signal 2, due-date proximity: if date matches were supplied, the first
same-page date match whose lower-cased text occurs in the context fires the
signal; with no date matches supplied the raw date pattern is searched in
the context instead. -/
def dueDateScore (page : Nat) (context : List Char) (date_matches : List AMatch) : ℚ :=
  if !date_matches.isEmpty then
    (if date_matches.any (fun d =>
        d.page_number == page && hasSub (d.text.map lowerCh) context) then
      2/5 else 0)
  else
    (if searchDatePattern context then 2/5 else 0)

/-- Signal 3, action verbs: count of pattern occurrences times 0.2, capped
at 0.4. -/
def actionVerbScore (context : List Char) : ℚ :=
  min (((finditer actionVerbM context).length : ℚ) * (1/5)) (2/5)

def pointValuesScore (context : List Char) : ℚ :=
  if searchPointValues context then 1/5 else 0

/-- Signal 5 runs on the original-case context. -/
def capitalizedTitleScore (origContext : List Char) : ℚ :=
  if searchCapitalizedTitle origContext then 1/5 else 0

/-- Signal 6 runs on the original-case context. -/
def listFormatScore (origContext : List Char) : ℚ :=
  if searchListFormat origContext then 1/10 else 0

def specificKeywordList : List (List Char) :=
  [litHomework, litProject, litExam, litQuiz, litLab]

def specificKeywordScore (matchText : List Char) : ℚ :=
  if specificKeywordList.any (fun kw => hasSub kw (matchText.map lowerCh)) then
    1/10 else 0

def assignmentOfScore (context : List Char) : ℚ :=
  if searchAssignmentOf context then -(4/5) else 0

def readingAssignmentScore (context : List Char) : ℚ :=
  if searchReadingAssignment context then -(1/2) else 0

def generalDescriptionScore (context : List Char) : ℚ :=
  if searchGeneralDescription context then -(3/10) else 0

/-- The raw (un-normalized) score accumulated by `_is_real_assignment`. -/
def rawScore (mtch : AMatch) (date_matches : List AMatch) : ℚ :=
  let context := mtch.context.map lowerCh
  assignmentNumberScore context +
  dueDateScore mtch.page_number context date_matches +
  actionVerbScore context +
  pointValuesScore context +
  capitalizedTitleScore mtch.context +
  listFormatScore mtch.context +
  specificKeywordScore mtch.text +
  assignmentOfScore context +
  readingAssignmentScore context +
  generalDescriptionScore context

/-- Source `_is_real_assignment`.  `threshold? = none` models the Python default
`threshold=None`, replaced by the parser's `assignment_threshold`. -/
def isRealAssignment (cfg : ParserConfig) (mtch : AMatch)
    (date_matches : List AMatch) (threshold? : Option ℚ) : Bool × ℚ :=
  let threshold := match threshold? with
    | some t => t
    | none => cfg.assignment_threshold
  let score := rawScore mtch date_matches
  let max_possible_score : ℚ := 3/2
  let min_possible_score : ℚ := -(8/5)
  let score_range := max_possible_score - min_possible_score
  let normalized_score := max 0 (min 1 ((score - min_possible_score) / score_range))
  (decide (threshold ≤ normalized_score), normalized_score)

/-! ## Finders (source lines 261-340) -/

/-- Source `_get_bounding_box`: first spatial hit, or the `(0,0,0,0)` sentinel when
the lookup finds nothing or raises. -/
def getBoundingBox (doc : PDoc) (page_num : Nat) (match_text : List Char) :
    ℚ × ℚ × ℚ × ℚ :=
  match doc.searchFor page_num match_text with
  | some b => b
  | none => (0, 0, 0, 0)

/-- Iteration over `enumerate(page_texts)` producing concatenated per-page
results. -/
def forPages (f : Nat → List Char → List AMatch) : Nat → List (List Char) → List AMatch
  | _, [] => []
  | pn, t :: ts => f pn t ++ forPages f (pn + 1) ts

/-- Source `_find_assignments` on one page. -/
def findAssignmentsPage (cfg : ParserConfig) (doc : PDoc) (page_num : Nat)
    (text : List Char) : List AMatch :=
  (finditer assignM text).map (fun pm =>
    { text := pm.2
      page_number := page_num + 1
      context := extractContext cfg.context_window text pm.1 (pm.1 + pm.2.length)
      match_type := "assignment"
      position := getBoundingBox doc page_num pm.2 })

/-- Source `_find_assignments`. -/
def findAssignments (cfg : ParserConfig) (doc : PDoc)
    (page_texts : List (List Char)) : List AMatch :=
  forPages (findAssignmentsPage cfg doc) 0 page_texts

/-- Source `_find_dates` on one page. -/
def findDatesPage (cfg : ParserConfig) (doc : PDoc) (page_num : Nat)
    (text : List Char) : List AMatch :=
  (finditer dateM text).map (fun pm =>
    { text := pm.2
      page_number := page_num + 1
      context := extractContext cfg.context_window text pm.1 (pm.1 + pm.2.length)
      match_type := "date"
      position := getBoundingBox doc page_num pm.2 })

/-- Source `_find_dates`. -/
def findDates (cfg : ParserConfig) (doc : PDoc)
    (page_texts : List (List Char)) : List AMatch :=
  forPages (findDatesPage cfg doc) 0 page_texts

/-! ## `_find_combined_matches` (source lines 342-383) -/

/-- The combined match built for an assignment occurrence and a date
occurrence on page `page_num` of `text`. -/
def mkCombined (cfg : ParserConfig) (text : List Char) (page_num : Nat)
    (a d : Nat × List Char) : AMatch :=
  { text := a.2 ++ (" | ".toList) ++ d.2
    page_number := page_num + 1
    context := extractContext cfg.context_window text (min a.1 d.1)
      (max (a.1 + a.2.length) (d.1 + d.2.length))
    match_type := "combined"
    position := (0, 0, 0, 0) }

/-- Inner loop over the date occurrences of a page: the first date whose
start offset is within 300 characters of the assignment occurrence produces
a combined match, after which the loop breaks. -/
def firstCombined (cfg : ParserConfig) (text : List Char) (page_num : Nat)
    (a : Nat × List Char) : List (Nat × List Char) → Option AMatch
  | [] => none
  | d :: ds =>
    if ((a.1 : ℤ) - (d.1 : ℤ)).natAbs < 300 then
      some (mkCombined cfg text page_num a d)
    else firstCombined cfg text page_num a ds

/-- Source `_find_combined_matches` on one page. -/
def findCombinedPage (cfg : ParserConfig) (page_num : Nat) (text : List Char) :
    List AMatch :=
  (finditer assignM text).filterMap (fun a =>
    firstCombined cfg text page_num a (finditer dateM text))

/-- Source `_find_combined_matches`.  The `assignment_matches` and `date_matches`
parameters are accepted (as in the source) but never read: the function
re-runs the regex scans over the page texts. -/
def findCombinedMatches (cfg : ParserConfig) (page_texts : List (List Char))
    (assignment_matches date_matches : List AMatch) : List AMatch :=
  forPages (findCombinedPage cfg) 0 page_texts

/-! ## Filtering and extraction (source lines 385-464) -/

/-- Source `filter_real_assignments` (threshold argument omitted, so the parser's
`assignment_threshold` is used). -/
def filterRealAssignments (cfg : ParserConfig) (assignment_matches : List AMatch)
    (date_matches : List AMatch) : List AMatch :=
  assignment_matches.filter (fun m => (isRealAssignment cfg m date_matches none).1)

/-- Source `_extract_pages` page-text loop: stops with the first raised error. -/
def extractPagesAux (doc : PDoc) : List Nat → Except String (List (List Char))
  | [] => .ok []
  | i :: is =>
    match doc.getText i with
    | .error e => .error e
    | .ok t =>
      match extractPagesAux doc is with
      | .error e => .error e
      | .ok ts => .ok (t :: ts)

/-- Source `_extract_pages` (the document handle itself is `doc`). -/
def extractPages (doc : PDoc) : Except String (List (List Char)) :=
  extractPagesAux doc (List.range doc.numPages)

/-- Source `extract_assignments_and_dates`.  The second component records whether
`doc.close()` was reached: the source closes the handle only on the
non-raising path (there is no `try/finally`), so a raised page-scan error
propagates with the handle still open. -/
def extractAssignmentsAndDates (cfg : ParserConfig) (doc : PDoc)
    (filter_real : Bool) : Except String ExtractOutput × Bool :=
  match extractPages doc with
  | .error e => (.error e, false)
  | .ok page_texts =>
    let assignment_matches := findAssignments cfg doc page_texts
    let date_matches := findDates cfg doc page_texts
    let assignment_matches :=
      if filter_real then filterRealAssignments cfg assignment_matches date_matches
      else assignment_matches
    let combined_matches :=
      findCombinedMatches cfg page_texts assignment_matches date_matches
    (.ok { assignments := assignment_matches
           dates := date_matches
           combined := combined_matches }, true)

/-- Source `get_assignments_with_confidence`, with the same closed-flag convention. -/
def getAssignmentsWithConfidence (cfg : ParserConfig) (doc : PDoc) :
    Except String (List ScoredAssignment) × Bool :=
  match extractPages doc with
  | .error e => (.error e, false)
  | .ok page_texts =>
    let assignment_matches := findAssignments cfg doc page_texts
    let date_matches := findDates cfg doc page_texts
    (.ok (assignment_matches.map (fun m =>
      let ic := isRealAssignment cfg m date_matches none
      { text := m.text
        page := m.page_number
        context := m.context
        is_real := ic.1
        confidence := ic.2
        position := m.position })), true)

/-- A document whose pages are the given texts, whose page reads always
succeed and whose spatial lookups always miss. -/
def pureDoc (pages : List (List Char)) : PDoc :=
  { numPages := pages.length
    getText := fun i => .ok (pages.getD i [])
    searchFor := fun _ _ => none }

/-! ## Soundness of the matchers

`SoundM M` states that a successful match consumed a non-empty chunk that
splits the input, and that the chunk starts and ends with word characters
(true of every keyword and date alternative: they begin and end in letters
or digits).  This is what guarantees that `str.strip` in
`_extract_context` never eats into the matched text (claim C7).
-/

def WordEnds (m : List Char) : Prop :=
  (∀ c, m.head? = some c → isWordCh c = true) ∧
  (∀ c, m.getLast? = some c → isWordCh c = true)

def SoundM (M : Mtch) : Prop :=
  ∀ prev cs m r, M prev cs = some (m, r) → cs = m ++ r ∧ m ≠ [] ∧ WordEnds m

/-- Decidable check that a literal starts with a word character. -/
def headWordOK (w : List Char) : Bool :=
  match w.head? with
  | some c => isWordCh c
  | none => true

/-- Decidable check that a literal ends with a word character. -/
def lastWordOK (w : List Char) : Bool :=
  match w.getLast? with
  | some c => isWordCh c
  | none => true

/-! ## Spec-side formulation of the proximity linker (for C3) -/

/-- Formalisation of the spec's wording for the proximity linker: for each
page, each assignment occurrence is linked to the FIRST date occurrence in
scan order whose start-offset distance is strictly below 300 characters
(first-found wins, not closest); the emitted combined match carries the
joined text, the union context window and the sentinel box (`mkCombined`). -/
def combinedSpecPage (cfg : ParserConfig) (page_num : Nat) (text : List Char) :
    List AMatch :=
  (finditer assignM text).filterMap (fun a =>
    ((finditer dateM text).find?
        (fun d => decide (((a.1 : ℤ) - (d.1 : ℤ)).natAbs < 300))).map
      (fun d => mkCombined cfg text page_num a d))

/-! ## Concrete inputs used by the claims -/

deriving instance DecidableEq for Except

def c1Context : List Char :=
  "Assignment 3 is due on 10/15/2026, worth 50 points.".toList

def c1ContextL : List Char := c1Context.map lowerCh

def c1Match : AMatch :=
  { text := "Assignment".toList, page_number := 1, context := c1Context,
    match_type := "assignment", position := (0, 0, 0, 0) }

def c1Date : AMatch :=
  { text := "10/15/2026".toList, page_number := 1, context := c1Context,
    match_type := "date", position := (0, 0, 0, 0) }

def c2Cfg : ParserConfig := { context_window := 200, assignment_threshold := 9/10 }

def c4Context : List Char := "due on 10/15/2026".toList

def c4Match : AMatch :=
  { text := "due".toList, page_number := 1, context := c4Context,
    match_type := "assignment", position := (0, 0, 0, 0) }

def c4Date : AMatch :=
  { text := "10/15/2026".toList, page_number := 2, context := c4Context,
    match_type := "date", position := (0, 0, 0, 0) }

def c6WitnessMatch : AMatch :=
  { text := "homework".toList, page_number := 1,
    context := "• Homework Alpha hw 1 due 10/15/2026 submit worth 10 points".toList,
    match_type := "assignment", position := (0, 0, 0, 0) }

def c7WitnessMatch : AMatch :=
  { text := "Assignment".toList, page_number := 1, context := c1Context,
    match_type := "assignment", position := (0, 0, 0, 0) }

/-- A document whose single page read raises. -/
def c9BadDoc : PDoc :=
  { numPages := 1
    getText := fun _ => .error "page read failure"
    searchFor := fun _ _ => none }

def c10Text : List Char := " a ".toList

/-! ## Lemmas and claim theorems -/

lemma isWordCh_of_lowerCh_eq {c d : Char} (h : lowerCh c = d)
    (hd : isWordCh d = true) : isWordCh c = true := by
  unfold lowerCh at h
  by_cases hu : isUpperAlphaCh c = true
  · simp [isWordCh, isAlphaCh, hu]
  · rw [if_neg hu] at h
    rw [h]; exact hd

lemma not_isSpaceCh_of_isWordCh {c : Char} (h : isWordCh c = true) :
    isSpaceCh c = false := by
  cases hs : isSpaceCh c
  · rfl
  · exfalso
    unfold isSpaceCh at hs
    simp only [Bool.or_eq_true, beq_iff_eq] at hs
    rcases hs with ((((rfl | rfl) | rfl) | rfl) | rfl) | rfl <;>
      exact absurd h (by decide)

lemma startsW_iff {u v : List Char} : startsW u v = true ↔ ∃ t, v = u ++ t := by
  induction u generalizing v with
  | nil => simp [startsW]
  | cons a as ih =>
    cases v with
    | nil => simp [startsW]
    | cons b bs =>
      simp only [startsW, Bool.and_eq_true, beq_iff_eq, ih]
      constructor
      · rintro ⟨rfl, t, rfl⟩; exact ⟨t, rfl⟩
      · rintro ⟨t, ht⟩
        injection ht with h1 h2
        exact ⟨h1.symm, t, h2⟩

lemma hasSub_iff {u w : List Char} : hasSub u w = true ↔ ∃ a b, w = a ++ u ++ b := by
  induction w with
  | nil =>
    simp only [hasSub, List.isEmpty_iff]
    constructor
    · rintro rfl; exact ⟨[], [], rfl⟩
    · rintro ⟨a, b, h⟩
      rcases List.append_eq_nil.mp ((List.append_eq_nil).mp h.symm).1 with ⟨_, h2⟩
      exact h2
  | cons c cs ih =>
    simp only [hasSub, Bool.or_eq_true, startsW_iff, ih]
    constructor
    · rintro (⟨t, ht⟩ | ⟨a, b, hab⟩)
      · exact ⟨[], t, by simp [ht]⟩
      · exact ⟨c :: a, b, by simp [hab]⟩
    · rintro ⟨a, b, hab⟩
      cases a with
      | nil => exact Or.inl ⟨b, by simpa using hab⟩
      | cons x xs =>
        injection hab with h1 h2
        exact Or.inr ⟨xs, b, h2⟩

lemma exists_sub_dropWhile {p : Char → Bool} {u w : List Char}
    (h : ∃ a b, w = a ++ u ++ b) (hne : u ≠ [])
    (hh : ∀ c, u.head? = some c → p c = false) :
    ∃ a b, w.dropWhile p = a ++ u ++ b := by
  obtain ⟨a, b, rfl⟩ := h
  induction a with
  | nil =>
    cases u with
    | nil => exact absurd rfl hne
    | cons x xs =>
      have hx : p x = false := hh x rfl
      refine ⟨[], b, ?_⟩
      simp [List.dropWhile_cons, hx]
  | cons y ys ih =>
    by_cases hy : p y = true
    · simpa [List.dropWhile_cons, hy] using ih
    · refine ⟨y :: ys, b, ?_⟩
      simp [List.dropWhile_cons, Bool.eq_false_iff.mpr hy]

lemma exists_sub_reverse {u w : List Char} (h : ∃ a b, w = a ++ u ++ b) :
    ∃ a b, w.reverse = a ++ u.reverse ++ b := by
  obtain ⟨a, b, rfl⟩ := h
  exact ⟨b.reverse, a.reverse, by simp⟩

lemma sub_pyStrip {u w : List Char}
    (h : ∃ a b, w = a ++ u ++ b) (hne : u ≠ [])
    (hh : ∀ c, u.head? = some c → isSpaceCh c = false)
    (hl : ∀ c, u.getLast? = some c → isSpaceCh c = false) :
    ∃ a b, pyStrip w = a ++ u ++ b := by
  have h1 : ∃ a b, w.dropWhile isSpaceCh = a ++ u ++ b :=
    exists_sub_dropWhile h hne hh
  have h2 : ∃ a b, (w.dropWhile isSpaceCh).reverse = a ++ u.reverse ++ b :=
    exists_sub_reverse h1
  have hne' : u.reverse ≠ [] := by
    intro hx
    exact hne (by simpa using congrArg List.reverse hx)
  have hh' : ∀ c, u.reverse.head? = some c → isSpaceCh c = false := by
    intro c hc
    rw [List.head?_reverse] at hc
    exact hl c hc
  have h3 : ∃ a b, ((w.dropWhile isSpaceCh).reverse.dropWhile isSpaceCh) =
      a ++ u.reverse ++ b := exists_sub_dropWhile h2 hne' hh'
  obtain ⟨a, b, hab⟩ := h3
  refine ⟨b.reverse, a.reverse, ?_⟩
  unfold pyStrip
  rw [hab]
  simp

lemma ciTake_eq {w : List Char} : ∀ {cs m r}, ciTake w cs = some (m, r) →
    cs = m ++ r ∧ m.map lowerCh = w := by
  induction w with
  | nil =>
    intro cs m r h
    unfold ciTake at h
    injection h with h
    injection h with h1 h2
    subst h1; subst h2; simp
  | cons p ps ih =>
    intro cs m r h
    cases cs with
    | nil => exact absurd h (by simp [ciTake])
    | cons c cs' =>
      unfold ciTake at h
      split at h
      · cases hc : ciTake ps cs' with
        | none => rw [hc] at h; exact absurd h (by simp)
        | some mr =>
          obtain ⟨m', r'⟩ := mr
          rw [hc] at h
          injection h with h
          injection h with h1 h2
          subst h1; subst h2
          obtain ⟨he, hm⟩ := ih hc
          constructor
          · simp [he]
          · simp [hm]
            assumption
      · exact absurd h (by simp)

lemma map_head?_eq {f : Char → Char} {l : List Char} {c : Char}
    (h : l.head? = some c) : (l.map f).head? = some (f c) := by
  cases l <;> simp_all

lemma map_getLast?_eq {f : Char → Char} : ∀ {l : List Char} {c : Char},
    l.getLast? = some c → (l.map f).getLast? = some (f c) := by
  intro l
  induction l with
  | nil => intro c h; simp at h
  | cons x xs ih =>
    intro c h
    cases xs with
    | nil => simp at h; subst h; simp
    | cons y ys =>
      rw [List.getLast?_cons_cons] at h
      have := ih h
      simpa [List.getLast?_cons_cons] using this

lemma mem_of_getLast?_eq : ∀ {l : List Char} {c : Char},
    l.getLast? = some c → c ∈ l := by
  intro l
  induction l with
  | nil => intro c h; simp at h
  | cons x xs ih =>
    intro c h
    cases xs with
    | nil => simp at h; subst h; simp
    | cons y ys =>
      rw [List.getLast?_cons_cons] at h
      exact List.mem_cons_of_mem x (ih h)

lemma mem_takeWhile_prop {p : Char → Bool} : ∀ {l : List Char} {c : Char},
    c ∈ l.takeWhile p → p c = true := by
  intro l
  induction l with
  | nil => intro c h; simp [List.takeWhile] at h
  | cons x xs ih =>
    intro c h
    rw [List.takeWhile_cons] at h
    by_cases hx : p x = true
    · rw [if_pos hx] at h
      rcases List.mem_cons.mp h with rfl | h'
      · exact hx
      · exact ih h'
    · rw [if_neg hx] at h
      simp at h

lemma head?_dropWhile_prop {p : Char → Bool} : ∀ {l : List Char} {c : Char},
    (l.dropWhile p).head? = some c → p c = false := by
  intro l
  induction l with
  | nil => intro c h; simp [List.dropWhile] at h
  | cons x xs ih =>
    intro c h
    rw [List.dropWhile_cons] at h
    by_cases hx : p x = true
    · rw [if_pos hx] at h
      exact ih h
    · rw [if_neg hx] at h
      simp at h
      subst h
      exact Bool.eq_false_iff.mpr hx

lemma getLast?_append_right {l1 l2 : List Char} (h : l2 ≠ []) :
    (l1 ++ l2).getLast? = l2.getLast? := by
  rw [List.getLast?_append]
  cases hx : l2.getLast? with
  | none =>
    exact absurd (List.getLast?_isSome.mpr h) (by simp [hx])
  | some c => rfl

lemma ciTake_ne_nil {w cs m r : List Char} (hw : w ≠ [])
    (h : ciTake w cs = some (m, r)) : m ≠ [] := by
  intro hm
  obtain ⟨_, hmap⟩ := ciTake_eq h
  subst hm
  exact hw hmap.symm

lemma ciTake_head_word {w cs m r : List Char} (h : ciTake w cs = some (m, r))
    (hw : ∀ c, w.head? = some c → isWordCh c = true) :
    ∀ c, m.head? = some c → isWordCh c = true := by
  intro c hc
  obtain ⟨_, hmap⟩ := ciTake_eq h
  have : w.head? = some (lowerCh c) := by
    rw [← hmap]
    exact map_head?_eq hc
  exact isWordCh_of_lowerCh_eq rfl (hw _ this)

lemma ciTake_getLast_word {w cs m r : List Char} (h : ciTake w cs = some (m, r))
    (hw : ∀ c, w.getLast? = some c → isWordCh c = true) :
    ∀ c, m.getLast? = some c → isWordCh c = true := by
  intro c hc
  obtain ⟨_, hmap⟩ := ciTake_eq h
  have : w.getLast? = some (lowerCh c) := by
    rw [← hmap]
    exact map_getLast?_eq hc
  exact isWordCh_of_lowerCh_eq rfl (hw _ this)

lemma kwOne_sound {w : List Char} (hne : w ≠ [])
    (hh : ∀ c, w.head? = some c → isWordCh c = true)
    (hl : ∀ c, w.getLast? = some c → isWordCh c = true) :
    SoundM (kwOne w) := by
  intro prev cs m r h
  unfold kwOne at h
  split at h
  · exact absurd h (by simp)
  · cases hc : ciTake w cs with
    | none => rw [hc] at h; exact absurd h (by simp)
    | some mr =>
      obtain ⟨m', r'⟩ := mr
      rw [hc] at h
      simp only at h
      split at h
      · exact absurd h (by simp)
      · injection h with h
        injection h with h1 h2
        subst h1; subst h2
        obtain ⟨he, _⟩ := ciTake_eq hc
        exact ⟨he, ciTake_ne_nil hne hc,
          ciTake_head_word hc hh, ciTake_getLast_word hc hl⟩

lemma kwTwo_sound {w1 w2 : List Char} (hne1 : w1 ≠ []) (hne2 : w2 ≠ [])
    (hh : ∀ c, w1.head? = some c → isWordCh c = true)
    (hl : ∀ c, w2.getLast? = some c → isWordCh c = true) :
    SoundM (kwTwo w1 w2) := by
  intro prev cs m r h
  unfold kwTwo at h
  split at h
  · exact absurd h (by simp)
  · cases hc1 : ciTake w1 cs with
    | none => rw [hc1] at h; exact absurd h (by simp)
    | some mr1 =>
      obtain ⟨m1, r1⟩ := mr1
      rw [hc1] at h
      simp only at h
      split at h
      · exact absurd h (by simp)
      · cases hc2 : ciTake w2 (r1.dropWhile isSpaceCh) with
        | none => rw [hc2] at h; exact absurd h (by simp)
        | some mr2 =>
          obtain ⟨m2, r3⟩ := mr2
          rw [hc2] at h
          simp only at h
          split at h
          · exact absurd h (by simp)
          · injection h with h
            injection h with h1 h2
            subst h1; subst h2
            obtain ⟨he1, _⟩ := ciTake_eq hc1
            obtain ⟨he2, _⟩ := ciTake_eq hc2
            have hm1 : m1 ≠ [] := ciTake_ne_nil hne1 hc1
            have hm2 : m2 ≠ [] := ciTake_ne_nil hne2 hc2
            have hr1 : r1 = r1.takeWhile isSpaceCh ++ (m2 ++ r3) := by
              conv_lhs => rw [← List.takeWhile_append_dropWhile isSpaceCh r1]
              rw [he2]
            refine ⟨?_, by simp [hm1], ?_, ?_⟩
            · rw [he1]
              conv_lhs => rw [hr1]
              simp
            · intro c hc
              have hx : m1.head? = some c := by
                cases m1 with
                | nil => exact absurd rfl hm1
                | cons x xs => simpa using hc
              exact ciTake_head_word hc1 hh c hx
            · intro c hc
              rw [getLast?_append_right (by simp [hm2]),
                getLast?_append_right hm2] at hc
              exact ciTake_getLast_word hc2 hl c hc

lemma altM_sound : ∀ {Ms : List Mtch}, (∀ M ∈ Ms, SoundM M) → SoundM (altM Ms) := by
  intro Ms
  induction Ms with
  | nil => intro _ prev cs m r h; exact absurd h (by simp [altM])
  | cons M rest ih =>
    intro hall prev cs m r h
    unfold altM at h
    cases hc : M prev cs with
    | some x =>
      obtain ⟨x1, x2⟩ := x
      rw [hc] at h
      simp only at h
      injection h with h
      injection h with h1 h2
      subst h1; subst h2
      exact hall M (by simp) prev cs _ _ hc
    | none =>
      rw [hc] at h
      simp only at h
      exact ih (fun M' hM' => hall M' (List.mem_cons_of_mem _ hM')) prev cs m r h

lemma tryLits_elim {ws : List (List Char)} {cs m r : List Char}
    {k : List Char → List Char → Option (List Char × List Char)}
    (h : tryLits ws cs k = some (m, r)) :
    ∃ w ∈ ws, ∃ mm r1, ciTake w cs = some (mm, r1) ∧ k mm r1 = some (m, r) := by
  induction ws with
  | nil => exact absurd h (by simp [tryLits])
  | cons w rest ih =>
    unfold tryLits at h
    cases hc : ciTake w cs with
    | some mr1 =>
      obtain ⟨mm, r1⟩ := mr1
      rw [hc] at h
      simp only at h
      cases hk : k mm r1 with
      | some res =>
        rw [hk] at h
        simp only at h
        injection h with h
        subst h
        exact ⟨w, by simp, mm, r1, hc, hk⟩
      | none =>
        rw [hk] at h
        simp only at h
        obtain ⟨w', hw', rest'⟩ := ih h
        exact ⟨w', List.mem_cons_of_mem _ hw', rest'⟩
    | none =>
      rw [hc] at h
      simp only at h
      obtain ⟨w', hw', rest'⟩ := ih h
      exact ⟨w', List.mem_cons_of_mem _ hw', rest'⟩

lemma optCh_append (ch : Char) (cs : List Char) :
    (optCh ch cs).1 ++ (optCh ch cs).2 = cs := by
  unfold optCh
  cases cs with
  | nil => rfl
  | cons c r =>
    by_cases hc : (c == ch) = true
    · simp [hc]
    · simp [Bool.eq_false_iff.mpr hc]

lemma mem_of_head?_eq {l : List Char} {c : Char} (h : l.head? = some c) : c ∈ l := by
  cases l <;> simp_all

lemma isWordCh_of_isDigitCh {c : Char} (h : isDigitCh c = true) :
    isWordCh c = true := by
  simp [isWordCh, h]

lemma head_word_of_ok {w : List Char} (h : headWordOK w = true) :
    ∀ c, w.head? = some c → isWordCh c = true := by
  intro c hc
  unfold headWordOK at h
  rw [hc] at h
  exact h

lemma last_word_of_ok {w : List Char} (h : lastWordOK w = true) :
    ∀ c, w.getLast? = some c → isWordCh c = true := by
  intro c hc
  unfold lastWordOK at h
  rw [hc] at h
  exact h

lemma monthsFull_facts :
    ∀ w ∈ monthsFull, headWordOK w = true ∧ lastWordOK w = true ∧ w ≠ [] := by
  decide

lemma monthsAbbrev_facts :
    ∀ w ∈ monthsAbbrev, headWordOK w = true ∧ lastWordOK w = true ∧ w ≠ [] := by
  decide

lemma weekdays_facts :
    ∀ w ∈ weekdays, headWordOK w = true ∧ lastWordOK w = true ∧ w ≠ [] := by
  decide

lemma dateTailYear_sound {pre r m rr : List Char}
    (h : dateTailYear pre r = some (m, rr)) :
    m ++ rr = pre ++ r ∧ (∃ t, m = pre ++ t) ∧
      (∃ c, m.getLast? = some c ∧ isDigitCh c = true) := by
  unfold dateTailYear at h
  simp only at h
  split at h
  · exact absurd h (by simp)
  · split at h
    · rename_i hcond
      injection h with h
      injection h with h1 h2
      subst h1; subst h2
      have hd4 : ((r.dropWhile isSpaceCh).takeWhile isDigitCh).length = 4 := by
        simp only [Bool.and_eq_true, beq_iff_eq] at hcond
        exact hcond.1
      have hdne : (r.dropWhile isSpaceCh).takeWhile isDigitCh ≠ [] := by
        intro hx; rw [hx] at hd4; simp at hd4
      have hstep1 : (r.dropWhile isSpaceCh).takeWhile isDigitCh ++
          (r.dropWhile isSpaceCh).dropWhile isDigitCh = r.dropWhile isSpaceCh :=
        List.takeWhile_append_dropWhile isDigitCh _
      have hstep2 : r.takeWhile isSpaceCh ++ r.dropWhile isSpaceCh = r :=
        List.takeWhile_append_dropWhile isSpaceCh r
      refine ⟨?_, ⟨_, rfl⟩, ?_⟩
      · calc pre ++ (r.takeWhile isSpaceCh ++ (r.dropWhile isSpaceCh).takeWhile isDigitCh)
              ++ (r.dropWhile isSpaceCh).dropWhile isDigitCh
            = pre ++ (r.takeWhile isSpaceCh ++
                ((r.dropWhile isSpaceCh).takeWhile isDigitCh ++
                 (r.dropWhile isSpaceCh).dropWhile isDigitCh)) := by simp
          _ = pre ++ (r.takeWhile isSpaceCh ++ r.dropWhile isSpaceCh) := by rw [hstep1]
          _ = pre ++ r := by rw [hstep2]
      · have hsome : ((r.dropWhile isSpaceCh).takeWhile isDigitCh).getLast?.isSome = true :=
          List.getLast?_isSome.mpr hdne
        obtain ⟨c, hc⟩ := Option.isSome_iff_exists.mp hsome
        refine ⟨c, ?_, ?_⟩
        · rw [getLast?_append_right (by simp [hdne]), getLast?_append_right hdne]
          exact hc
        · exact mem_takeWhile_prop (mem_of_getLast?_eq hc)
    · exact absurd h (by simp)

lemma dateTailDayYear_sound {pre r m rr : List Char}
    (h : dateTailDayYear pre r = some (m, rr)) :
    m ++ rr = pre ++ r ∧ (∃ t, m = pre ++ t) ∧
      (∃ c, m.getLast? = some c ∧ isDigitCh c = true) := by
  unfold dateTailDayYear at h
  simp only at h
  split at h
  · exact absurd h (by simp)
  · split at h
    · exact absurd h (by simp)
    · obtain ⟨hrec, ⟨t, ht⟩, hlast⟩ := dateTailYear_sound h
      have hopt : (optCh ','
          ((r.dropWhile isSpaceCh).dropWhile isDigitCh)).1 ++
          (optCh ',' ((r.dropWhile isSpaceCh).dropWhile isDigitCh)).2 =
          (r.dropWhile isSpaceCh).dropWhile isDigitCh := optCh_append _ _
      have hstep1 : (r.dropWhile isSpaceCh).takeWhile isDigitCh ++
          (r.dropWhile isSpaceCh).dropWhile isDigitCh = r.dropWhile isSpaceCh :=
        List.takeWhile_append_dropWhile isDigitCh _
      have hstep2 : r.takeWhile isSpaceCh ++ r.dropWhile isSpaceCh = r :=
        List.takeWhile_append_dropWhile isSpaceCh r
      refine ⟨?_, ⟨(List.takeWhile isSpaceCh r ++
        (List.takeWhile isDigitCh (List.dropWhile isSpaceCh r) ++
          (optCh ',' (List.dropWhile isDigitCh (List.dropWhile isSpaceCh r))).1)) ++ t,
        by rw [ht]; simp⟩, hlast⟩
      calc m ++ rr
          = pre ++ (r.takeWhile isSpaceCh ++ ((r.dropWhile isSpaceCh).takeWhile isDigitCh ++
              ((optCh ',' ((r.dropWhile isSpaceCh).dropWhile isDigitCh)).1 ++
               (optCh ',' ((r.dropWhile isSpaceCh).dropWhile isDigitCh)).2))) := by
            rw [hrec]; simp
        _ = pre ++ (r.takeWhile isSpaceCh ++ ((r.dropWhile isSpaceCh).takeWhile isDigitCh ++
              (r.dropWhile isSpaceCh).dropWhile isDigitCh)) := by rw [hopt]
        _ = pre ++ (r.takeWhile isSpaceCh ++ r.dropWhile isSpaceCh) := by rw [hstep1]
        _ = pre ++ r := by rw [hstep2]

lemma dateP1_sound : SoundM dateP1 := by
  intro prev cs m r h
  unfold dateP1 at h
  simp only at h
  split at h
  · exact absurd h (by simp)
  split at h
  · exact absurd h (by simp)
  rename_i hd1len
  cases hr1 : cs.dropWhile isDigitCh with
  | nil => rw [hr1] at h; simp at h
  | cons c1 r2 =>
    rw [hr1] at h
    simp only at h
    split at h
    · split at h
      · exact absurd h (by simp)
      rename_i hd2len
      cases hr3 : r2.dropWhile isDigitCh with
      | nil => rw [hr3] at h; simp at h
      | cons c2 r4 =>
        rw [hr3] at h
        simp only at h
        split at h
        · split at h
          · exact absurd h (by simp)
          rename_i hfin
          injection h with h
          injection h with h1 h2
          subst h1; subst h2
          have hd1ne : cs.takeWhile isDigitCh ≠ [] := by
            intro hx
            rw [hx] at hd1len
            simp at hd1len
          have hd3ne : r4.takeWhile isDigitCh ≠ [] := by
            intro hx
            rw [hx] at hfin
            simp at hfin
          have e1 : cs = cs.takeWhile isDigitCh ++ (c1 :: r2) := by
            rw [← hr1]
            exact (List.takeWhile_append_dropWhile isDigitCh cs).symm
          have e2 : r2 = r2.takeWhile isDigitCh ++ (c2 :: r4) := by
            rw [← hr3]
            exact (List.takeWhile_append_dropWhile isDigitCh r2).symm
          have e4 : r4 = r4.takeWhile isDigitCh ++ r4.dropWhile isDigitCh :=
            (List.takeWhile_append_dropWhile isDigitCh r4).symm
          refine ⟨?_, by simp, ?_, ?_⟩
          · conv_lhs => rw [e1, e2, e4]
            simp
          · intro c hc
            have hx : (cs.takeWhile isDigitCh).head? = some c := by
              cases hq : cs.takeWhile isDigitCh with
              | nil => exact absurd hq hd1ne
              | cons x xs =>
                rw [hq] at hc
                simpa using hc
            exact isWordCh_of_isDigitCh
              (mem_takeWhile_prop (mem_of_head?_eq hx))
          · intro c hc
            have g1 : (cs.takeWhile isDigitCh ++
                (c1 :: (r2.takeWhile isDigitCh ++ c2 :: r4.takeWhile isDigitCh))).getLast? =
                (c1 :: (r2.takeWhile isDigitCh ++ c2 :: r4.takeWhile isDigitCh)).getLast? :=
              getLast?_append_right (by simp)
            have g2 : (c1 :: (r2.takeWhile isDigitCh ++ c2 :: r4.takeWhile isDigitCh)).getLast? =
                (r2.takeWhile isDigitCh ++ c2 :: r4.takeWhile isDigitCh).getLast? := by
              rw [← List.singleton_append]
              exact getLast?_append_right (by simp)
            have g3 : (r2.takeWhile isDigitCh ++ c2 :: r4.takeWhile isDigitCh).getLast? =
                (c2 :: r4.takeWhile isDigitCh).getLast? :=
              getLast?_append_right (by simp)
            have g4 : (c2 :: r4.takeWhile isDigitCh).getLast? =
                (r4.takeWhile isDigitCh).getLast? := by
              rw [← List.singleton_append]
              exact getLast?_append_right hd3ne
            rw [g1, g2, g3, g4] at hc
            exact isWordCh_of_isDigitCh
              (mem_takeWhile_prop (mem_of_getLast?_eq hc))
        · exact absurd h (by simp)
    · exact absurd h (by simp)

lemma dateP5_sound : SoundM dateP5 := by
  intro prev cs m r h
  unfold dateP5 at h
  simp only at h
  split at h
  · exact absurd h (by simp)
  split at h
  case isFalse.isFalse => exact absurd h (by simp)
  rename_i hd1len
  cases hr1 : cs.dropWhile isDigitCh with
  | nil => rw [hr1] at h; simp at h
  | cons c1 r2 =>
    rw [hr1] at h
    simp only at h
    split at h
    · split at h
      case isTrue.isFalse => exact absurd h (by simp)
      rename_i hd2len
      cases hr3 : r2.dropWhile isDigitCh with
      | nil => rw [hr3] at h; simp at h
      | cons c2 r4 =>
        rw [hr3] at h
        simp only at h
        split at h
        · split at h
          · rename_i hfin
            injection h with h
            injection h with h1 h2
            subst h1; subst h2
            have hd1ne : cs.takeWhile isDigitCh ≠ [] := by
              intro hx
              rw [hx] at hd1len
              simp at hd1len
            have hd3ne : r4.takeWhile isDigitCh ≠ [] := by
              intro hx
              simp only [Bool.and_eq_true, beq_iff_eq] at hfin
              rw [hx] at hfin
              simp at hfin
            have e1 : cs = cs.takeWhile isDigitCh ++ (c1 :: r2) := by
              rw [← hr1]
              exact (List.takeWhile_append_dropWhile isDigitCh cs).symm
            have e2 : r2 = r2.takeWhile isDigitCh ++ (c2 :: r4) := by
              rw [← hr3]
              exact (List.takeWhile_append_dropWhile isDigitCh r2).symm
            have e4 : r4 = r4.takeWhile isDigitCh ++ r4.dropWhile isDigitCh :=
              (List.takeWhile_append_dropWhile isDigitCh r4).symm
            refine ⟨?_, by simp, ?_, ?_⟩
            · conv_lhs => rw [e1, e2, e4]
              simp
            · intro c hc
              have hx : (cs.takeWhile isDigitCh).head? = some c := by
                cases hq : cs.takeWhile isDigitCh with
                | nil => exact absurd hq hd1ne
                | cons x xs =>
                  rw [hq] at hc
                  simpa using hc
              exact isWordCh_of_isDigitCh
                (mem_takeWhile_prop (mem_of_head?_eq hx))
            · intro c hc
              have g1 : (cs.takeWhile isDigitCh ++
                  (c1 :: (r2.takeWhile isDigitCh ++ c2 :: r4.takeWhile isDigitCh))).getLast? =
                  (c1 :: (r2.takeWhile isDigitCh ++ c2 :: r4.takeWhile isDigitCh)).getLast? :=
                getLast?_append_right (by simp)
              have g2 : (c1 :: (r2.takeWhile isDigitCh ++
                  c2 :: r4.takeWhile isDigitCh)).getLast? =
                  (r2.takeWhile isDigitCh ++ c2 :: r4.takeWhile isDigitCh).getLast? := by
                rw [← List.singleton_append]
                exact getLast?_append_right (by simp)
              have g3 : (r2.takeWhile isDigitCh ++ c2 :: r4.takeWhile isDigitCh).getLast? =
                  (c2 :: r4.takeWhile isDigitCh).getLast? :=
                getLast?_append_right (by simp)
              have g4 : (c2 :: r4.takeWhile isDigitCh).getLast? =
                  (r4.takeWhile isDigitCh).getLast? := by
                rw [← List.singleton_append]
                exact getLast?_append_right hd3ne
              rw [g1, g2, g3, g4] at hc
              exact isWordCh_of_isDigitCh
                (mem_takeWhile_prop (mem_of_getLast?_eq hc))
          · exact absurd h (by simp)
        · exact absurd h (by simp)
    · exact absurd h (by simp)

lemma dateP2_sound : SoundM dateP2 := by
  intro prev cs m r h
  unfold dateP2 at h
  split at h
  · exact absurd h (by simp)
  · obtain ⟨w, hw, mm, r1, hci, hk⟩ := tryLits_elim h
    obtain ⟨hrec, ⟨t, ht⟩, c, hgl, hdig⟩ := dateTailDayYear_sound hk
    obtain ⟨hcs, _⟩ := ciTake_eq hci
    obtain ⟨hok1, _, hwne⟩ := monthsFull_facts w hw
    have hmmne : mm ≠ [] := ciTake_ne_nil hwne hci
    refine ⟨?_, ?_, ?_, ?_⟩
    · rw [hcs, ← hrec]
    · rw [ht]
      simp [hmmne]
    · intro c' hc'
      rw [ht] at hc'
      have hx : mm.head? = some c' := by
        cases hq : mm with
        | nil => exact absurd hq hmmne
        | cons x xs =>
          rw [hq] at hc'
          simpa using hc'
      exact ciTake_head_word hci (head_word_of_ok hok1) c' hx
    · intro c' hc'
      rw [hgl] at hc'
      injection hc' with hc'
      subst hc'
      exact isWordCh_of_isDigitCh hdig

lemma dateP3_sound : SoundM dateP3 := by
  intro prev cs m r h
  unfold dateP3 at h
  split at h
  · exact absurd h (by simp)
  · obtain ⟨w, hw, mm, r1, hci, hk⟩ := tryLits_elim h
    simp only at hk
    obtain ⟨hrec, ⟨t, ht⟩, c, hgl, hdig⟩ := dateTailDayYear_sound hk
    obtain ⟨hcs, _⟩ := ciTake_eq hci
    obtain ⟨hok1, _, hwne⟩ := monthsAbbrev_facts w hw
    have hmmne : mm ≠ [] := ciTake_ne_nil hwne hci
    have hdot : (optCh '.' r1).1 ++ (optCh '.' r1).2 = r1 := optCh_append _ _
    refine ⟨?_, ?_, ?_, ?_⟩
    · rw [hcs, ← hdot, ← List.append_assoc, ← hrec]
    · rw [ht]
      simp [hmmne]
    · intro c' hc'
      rw [ht] at hc'
      have hx : mm.head? = some c' := by
        cases hq : mm with
        | nil => exact absurd hq hmmne
        | cons x xs =>
          rw [hq] at hc'
          simpa using hc'
      exact ciTake_head_word hci (head_word_of_ok hok1) c' hx
    · intro c' hc'
      rw [hgl] at hc'
      injection hc' with hc'
      subst hc'
      exact isWordCh_of_isDigitCh hdig

lemma dateP4_sound : SoundM dateP4 := by
  intro prev cs m r h
  unfold dateP4 at h
  simp only at h
  split at h
  · exact absurd h (by simp)
  split at h
  · exact absurd h (by simp)
  rename_i hd1len
  split at h
  · exact absurd h (by simp)
  · obtain ⟨w, hw, mm, r3, hci, hk⟩ := tryLits_elim h
    obtain ⟨hrec, ⟨t, ht⟩, c, hgl, hdig⟩ := dateTailYear_sound hk
    obtain ⟨hr2, _⟩ := ciTake_eq hci
    have hd1ne : cs.takeWhile isDigitCh ≠ [] := by
      intro hx
      rw [hx] at hd1len
      simp at hd1len
    have e1 : cs = cs.takeWhile isDigitCh ++ cs.dropWhile isDigitCh :=
      (List.takeWhile_append_dropWhile isDigitCh cs).symm
    have e2 : cs.dropWhile isDigitCh =
        (cs.dropWhile isDigitCh).takeWhile isSpaceCh ++
        (cs.dropWhile isDigitCh).dropWhile isSpaceCh :=
      (List.takeWhile_append_dropWhile isSpaceCh _).symm
    refine ⟨?_, ?_, ?_, ?_⟩
    · rw [hrec]
      conv_lhs => rw [e1, e2, hr2]
      simp
    · rw [ht]
      simp [hd1ne]
    · intro c' hc'
      rw [ht] at hc'
      have hx : (cs.takeWhile isDigitCh).head? = some c' := by
        cases hq : cs.takeWhile isDigitCh with
        | nil => exact absurd hq hd1ne
        | cons x xs =>
          rw [hq] at hc'
          simpa using hc'
      exact isWordCh_of_isDigitCh (mem_takeWhile_prop (mem_of_head?_eq hx))
    · intro c' hc'
      rw [hgl] at hc'
      injection hc' with hc'
      subst hc'
      exact isWordCh_of_isDigitCh hdig

lemma dateP6_sound : SoundM dateP6 := by
  intro prev cs m r h
  unfold dateP6 at h
  split at h
  · exact absurd h (by simp)
  · obtain ⟨w, hw, wd, r1, hciw, hk⟩ := tryLits_elim h
    simp only at hk
    split at hk
    · exact absurd hk (by simp)
    · obtain ⟨w2, hw2, mm, r3, hcim, hk2⟩ := tryLits_elim hk
      obtain ⟨hrec, ⟨t, ht⟩, c, hgl, hdig⟩ := dateTailDayYear_sound hk2
      obtain ⟨hcs, _⟩ := ciTake_eq hciw
      obtain ⟨hr2, _⟩ := ciTake_eq hcim
      obtain ⟨hokw, _, hwne⟩ := weekdays_facts w hw
      have hwdne : wd ≠ [] := ciTake_ne_nil hwne hciw
      have hcm : (optCh ',' r1).1 ++ (optCh ',' r1).2 = r1 := optCh_append _ _
      have e2 : (optCh ',' r1).2 =
          (optCh ',' r1).2.takeWhile isSpaceCh ++
          (optCh ',' r1).2.dropWhile isSpaceCh :=
        (List.takeWhile_append_dropWhile isSpaceCh _).symm
      refine ⟨?_, ?_, ?_, ?_⟩
      · rw [hrec]
        conv_lhs => rw [hcs, ← hcm, e2, hr2]
        simp
      · rw [ht]
        simp [hwdne]
      · intro c' hc'
        rw [ht] at hc'
        have hx : wd.head? = some c' := by
          cases hq : wd with
          | nil => exact absurd hq hwdne
          | cons x xs =>
            rw [hq] at hc'
            simpa using hc'
        exact ciTake_head_word hciw (head_word_of_ok hokw) c' hx
      · intro c' hc'
        rw [hgl] at hc'
        injection hc' with hc'
        subst hc'
        exact isWordCh_of_isDigitCh hdig

lemma dateM_sound : SoundM dateM := by
  apply altM_sound
  intro M hM
  simp only [dateM, List.mem_cons, List.not_mem_nil, or_false] at hM
  rcases hM with rfl | rfl | rfl | rfl | rfl | rfl
  · exact dateP1_sound
  · exact dateP2_sound
  · exact dateP3_sound
  · exact dateP4_sound
  · exact dateP5_sound
  · exact dateP6_sound

lemma assignM_sound : SoundM assignM := by
  apply altM_sound
  intro M hM
  simp only [assignM, List.mem_cons, List.not_mem_nil, or_false] at hM
  rcases hM with rfl | rfl | rfl | rfl | rfl | rfl | rfl | rfl | rfl | rfl | rfl
  · exact kwOne_sound (by decide) (head_word_of_ok (by decide)) (last_word_of_ok (by decide))
  · exact kwOne_sound (by decide) (head_word_of_ok (by decide)) (last_word_of_ok (by decide))
  · exact kwTwo_sound (by decide) (by decide) (head_word_of_ok (by decide)) (last_word_of_ok (by decide))
  · exact kwOne_sound (by decide) (head_word_of_ok (by decide)) (last_word_of_ok (by decide))
  · exact kwOne_sound (by decide) (head_word_of_ok (by decide)) (last_word_of_ok (by decide))
  · exact kwOne_sound (by decide) (head_word_of_ok (by decide)) (last_word_of_ok (by decide))
  · exact kwOne_sound (by decide) (head_word_of_ok (by decide)) (last_word_of_ok (by decide))
  · exact kwOne_sound (by decide) (head_word_of_ok (by decide)) (last_word_of_ok (by decide))
  · exact kwOne_sound (by decide) (head_word_of_ok (by decide)) (last_word_of_ok (by decide))
  · exact kwOne_sound (by decide) (head_word_of_ok (by decide)) (last_word_of_ok (by decide))
  · exact kwOne_sound (by decide) (head_word_of_ok (by decide)) (last_word_of_ok (by decide))

lemma finditAux_sound {M : Mtch} (hM : SoundM M) (text : List Char) :
    ∀ prev cs pos, cs = text.drop pos → ∀ p m, (p, m) ∈ finditAux M prev cs pos →
      m ≠ [] ∧ WordEnds m ∧ pos ≤ p ∧ p + m.length ≤ text.length ∧
      m = (text.drop p).take m.length := by
  intro prev cs pos
  induction prev, cs, pos using finditAux.induct M with
  | case1 prev pos =>
    intro _ p m hmem
    rw [finditAux] at hmem
    simp at hmem
  | case2 prev pos c cs m0 r0 hm0 hlen0 ih =>
    intro hinv p m hmem
    rw [finditAux] at hmem
    rw [hm0] at hmem
    simp only at hmem
    rw [dif_pos hlen0] at hmem
    have hnext : cs = text.drop (pos + 1) := by
      rw [← List.drop_drop, ← hinv]
      simp
    obtain ⟨a1, a2, a3, a4, a5⟩ := ih hnext p m hmem
    exact ⟨a1, a2, by omega, a4, a5⟩
  | case3 prev pos c cs m0 r0 hm0 hlen0 ih =>
    intro hinv p m hmem
    rw [finditAux] at hmem
    rw [hm0] at hmem
    simp only at hmem
    rw [dif_neg hlen0] at hmem
    obtain ⟨hsplit, hne, hwe⟩ := hM prev (c :: cs) m0 r0 hm0
    rcases List.mem_cons.mp hmem with heq | htail
    · have h1 : p = pos := congrArg Prod.fst heq
      have h2 : m = m0 := congrArg Prod.snd heq
      rw [h1, h2]
      have hdrop : text.drop pos = m0 ++ r0 := by rw [← hinv]; exact hsplit
      have hl1 : (text.drop pos).length = text.length - pos :=
        List.length_drop pos text
      have hl2 : (text.drop pos).length = m0.length + r0.length := by
        rw [hdrop]; simp
      have hl3 : 1 ≤ m0.length :=
        Nat.pos_of_ne_zero (fun hx => hne (List.length_eq_zero.mp hx))
      refine ⟨hne, hwe, le_refl pos, by omega, ?_⟩
      rw [hdrop]
      exact (List.take_left m0 r0).symm
    · have hnext : (c :: cs).drop m0.length = text.drop (pos + m0.length) := by
        rw [← List.drop_drop, ← hinv]
      obtain ⟨a1, a2, a3, a4, a5⟩ := ih hnext p m htail
      exact ⟨a1, a2, by omega, a4, a5⟩
  | case4 prev pos c cs hm0 ih =>
    intro hinv p m hmem
    rw [finditAux] at hmem
    rw [hm0] at hmem
    simp only at hmem
    have hnext : cs = text.drop (pos + 1) := by
      rw [← List.drop_drop, ← hinv]
      simp
    obtain ⟨a1, a2, a3, a4, a5⟩ := ih hnext p m hmem
    exact ⟨a1, a2, by omega, a4, a5⟩

lemma finditer_sound {M : Mtch} (hM : SoundM M) {text : List Char} {p : Nat}
    {m : List Char} (hmem : (p, m) ∈ finditer M text) :
    m ≠ [] ∧ WordEnds m ∧ p + m.length ≤ text.length ∧
      m = (text.drop p).take m.length := by
  have h := finditAux_sound hM text none text 0 (by simp) p m hmem
  exact ⟨h.1, h.2.1, h.2.2.2.1, h.2.2.2.2⟩

lemma match_in_extractContext {text : List Char} {p k W : Nat}
    (hk : 1 ≤ k) (hle : p + k ≤ text.length)
    (hwe : WordEnds ((text.drop p).take k)) :
    hasSub ((text.drop p).take k) (extractContext W text p (p + k)) = true := by
  have hune : (text.drop p).take k ≠ [] := by
    intro hx
    have := congrArg List.length hx
    rw [List.length_take, List.length_drop] at this
    simp at this
    omega
  have hap : p - W ≤ p := Nat.sub_le _ _
  have hpb : p + k ≤ min text.length (p + k + W) := le_min hle (by omega)
  have hwin : pySlice text (p - W) (min text.length (p + k + W)) =
      (pySlice text (p - W) (min text.length (p + k + W))).take (p - (p - W)) ++
      ((text.drop p).take k ++
        ((text.drop p).drop k).take (min text.length (p + k + W) - p - k)) := by
    conv_lhs => rw [← List.take_append_drop
      (p - (p - W)) (pySlice text (p - W) (min text.length (p + k + W)))]
    congr 1
    unfold pySlice
    rw [List.drop_take, List.drop_drop]
    have e1 : p - W + (p - (p - W)) = p := by omega
    have e2 : min text.length (p + k + W) - (p - W) - (p - (p - W)) =
        min text.length (p + k + W) - p := by omega
    rw [e1, e2]
    have e3 : min text.length (p + k + W) - p =
        k + (min text.length (p + k + W) - p - k) := by omega
    nth_rewrite 1 [e3]
    rw [List.take_add]
  have hsub : ∃ a b, pySlice text (p - W) (min text.length (p + k + W)) =
      a ++ (text.drop p).take k ++ b := by
    refine ⟨(pySlice text (p - W) (min text.length (p + k + W))).take (p - (p - W)),
      ((text.drop p).drop k).take (min text.length (p + k + W) - p - k), ?_⟩
    conv_lhs => rw [hwin]
    simp
  have hh : ∀ c, ((text.drop p).take k).head? = some c → isSpaceCh c = false :=
    fun c hc => not_isSpaceCh_of_isWordCh (hwe.1 c hc)
  have hl : ∀ c, ((text.drop p).take k).getLast? = some c → isSpaceCh c = false :=
    fun c hc => not_isSpaceCh_of_isWordCh (hwe.2 c hc)
  have := sub_pyStrip hsub hune hh hl
  unfold extractContext
  exact hasSub_iff.mpr this

lemma mem_forPages {f : Nat → List Char → List AMatch} :
    ∀ {n : Nat} {pages : List (List Char)} {m : AMatch},
      m ∈ forPages f n pages → ∃ pn text, m ∈ f pn text := by
  intro n pages
  induction pages generalizing n with
  | nil => intro m h; simp [forPages] at h
  | cons t ts ih =>
    intro m h
    rw [forPages] at h
    rcases List.mem_append.mp h with h1 | h2
    · exact ⟨n, t, h1⟩
    · exact ih h2

/-! ## Helper lemmas for the claims -/

lemma match_in_extractContext2 {text u : List Char} {p W : Nat}
    (hne : u ≠ []) (hle : p + u.length ≤ text.length)
    (heq : u = (text.drop p).take u.length) (hwe : WordEnds u) :
    hasSub u (extractContext W text p (p + u.length)) = true := by
  have hk : 1 ≤ u.length :=
    Nat.pos_of_ne_zero (fun hx => hne (List.length_eq_zero.mp hx))
  have hwe' : WordEnds ((text.drop p).take u.length) := by
    rw [← heq]; exact hwe
  have h := @match_in_extractContext text p u.length W hk hle hwe'
  rw [← heq] at h
  exact h

lemma findAssignmentsPage_context {cfg : ParserConfig} {doc : PDoc} {pn : Nat}
    {text : List Char} {m : AMatch}
    (hm : m ∈ findAssignmentsPage cfg doc pn text) :
    hasSub m.text m.context = true := by
  unfold findAssignmentsPage at hm
  obtain ⟨pm, hpm, rfl⟩ := List.mem_map.mp hm
  obtain ⟨hne, hwe, hle, heq⟩ := finditer_sound assignM_sound hpm
  exact match_in_extractContext2 hne hle heq hwe

lemma findDatesPage_context {cfg : ParserConfig} {doc : PDoc} {pn : Nat}
    {text : List Char} {m : AMatch}
    (hm : m ∈ findDatesPage cfg doc pn text) :
    hasSub m.text m.context = true := by
  unfold findDatesPage at hm
  obtain ⟨pm, hpm, rfl⟩ := List.mem_map.mp hm
  obtain ⟨hne, hwe, hle, heq⟩ := finditer_sound dateM_sound hpm
  exact match_in_extractContext2 hne hle heq hwe

lemma extractPagesAux_pure (pages : List (List Char)) :
    ∀ is : List Nat, extractPagesAux (pureDoc pages) is =
      .ok (is.map (fun i => pages.getD i [])) := by
  intro is
  induction is with
  | nil => rfl
  | cons i is ih =>
    unfold extractPagesAux
    rw [ih]
    rfl

lemma map_range_getD : ∀ (l : List (List Char)),
    (List.range l.length).map (fun i => l.getD i []) = l := by
  intro l
  induction l with
  | nil => rfl
  | cons x xs ih =>
    rw [List.length_cons, List.range_succ_eq_map]
    simp only [List.map_cons, List.map_map]
    show x :: List.map (fun i => xs.getD i []) (List.range xs.length) = x :: xs
    rw [ih]

lemma extractPages_pure (pages : List (List Char)) :
    extractPages (pureDoc pages) = .ok pages := by
  unfold extractPages
  rw [extractPagesAux_pure]
  rw [show (pureDoc pages).numPages = pages.length from rfl]
  rw [map_range_getD]

lemma length_dropWhile_le (p : Char → Bool) :
    ∀ l : List Char, (l.dropWhile p).length ≤ l.length := by
  intro l
  induction l with
  | nil => exact le_refl _
  | cons x xs ih =>
    rw [List.dropWhile_cons]
    by_cases hx : p x = true
    · rw [if_pos hx]
      exact le_trans ih (by simp)
    · rw [if_neg hx]

lemma pyStrip_head_not_space {w : List Char} :
    ∀ c, (pyStrip w).head? = some c → isSpaceCh c = false := by
  intro c hc
  unfold pyStrip at hc
  rw [List.head?_reverse] at hc
  have hne : (((w.dropWhile isSpaceCh).reverse).dropWhile isSpaceCh) ≠ [] := by
    intro hx
    rw [hx] at hc
    simp at hc
  have hstep : (((w.dropWhile isSpaceCh).reverse).dropWhile isSpaceCh).getLast? =
      ((w.dropWhile isSpaceCh).reverse).getLast? := by
    conv_rhs => rw [← List.takeWhile_append_dropWhile isSpaceCh
      ((w.dropWhile isSpaceCh).reverse)]
    exact (getLast?_append_right hne).symm
  rw [hstep, List.getLast?_reverse] at hc
  exact head?_dropWhile_prop hc

lemma pyStrip_getLast_not_space {w : List Char} :
    ∀ c, (pyStrip w).getLast? = some c → isSpaceCh c = false := by
  intro c hc
  unfold pyStrip at hc
  rw [List.getLast?_reverse] at hc
  exact head?_dropWhile_prop hc

lemma firstCombined_eq_find (cfg : ParserConfig) (text : List Char)
    (page_num : Nat) (a : Nat × List Char) :
    ∀ ds, firstCombined cfg text page_num a ds =
      (ds.find? (fun d => decide (((a.1 : ℤ) - (d.1 : ℤ)).natAbs < 300))).map
        (fun d => mkCombined cfg text page_num a d) := by
  intro ds
  induction ds with
  | nil => rfl
  | cons d ds ih =>
    by_cases hd : ((a.1 : ℤ) - (d.1 : ℤ)).natAbs < 300
    · rw [firstCombined, if_pos hd,
        List.find?_cons_of_pos _ (by simpa using hd)]
      rfl
    · rw [firstCombined, if_neg hd, ih,
        List.find?_cons_of_neg _ (by simpa using hd)]

/-! ## The claims -/

/-- C1 counterexample: on the claim's exact input — context
"Assignment 3 is due on 10/15/2026, worth 50 points.", matched text
"Assignment", one same-page date match "10/15/2026" — the capitalized-title
signal contributes 0 (the keyword "Assignment" is followed by the digit
"3", which `[A-Z]` does not accept), while the action-verbs signal
contributes +0.20 (one occurrence of "due").  This refutes the claim's
exact signal enumeration, which lists capitalized_title (+0.20) and omits
action_verbs. -/
theorem c1_counterexample :
    capitalizedTitleScore c1Match.context = 0 ∧
    actionVerbScore c1ContextL = 1/5 := by
  constructor
  · with_unfolding_all decide
  · with_unfolding_all decide

/-- C1 amended: on the claim's input the signals that fire are exactly
assignment_number (+0.30), due_date_proximity (+0.40), action_verbs
(+0.20) and point_values (+0.20); capitalized_title, list_format, the
specific-keyword bonus and all negative signals contribute 0.  The raw
score is still 1.10, the normalized confidence is 27/31 ≈ 0.871, and
is_real = true at threshold 0.6. -/
theorem c1_amended :
    assignmentNumberScore c1ContextL = 3/10 ∧
    dueDateScore c1Match.page_number c1ContextL [c1Date] = 2/5 ∧
    actionVerbScore c1ContextL = 1/5 ∧
    pointValuesScore c1ContextL = 1/5 ∧
    capitalizedTitleScore c1Match.context = 0 ∧
    listFormatScore c1Match.context = 0 ∧
    specificKeywordScore c1Match.text = 0 ∧
    assignmentOfScore c1ContextL = 0 ∧
    readingAssignmentScore c1ContextL = 0 ∧
    generalDescriptionScore c1ContextL = 0 ∧
    rawScore c1Match [c1Date] = 11/10 ∧
    isRealAssignment ⟨200, 3/5⟩ c1Match [c1Date] (some (3/5)) = (true, 27/31) := by
  refine ⟨?_, ?_, ?_, ?_, ?_, ?_, ?_, ?_, ?_, ?_, ?_, ?_⟩ <;> with_unfolding_all decide

/-- C2 counterexample: with threshold 0.9 and filter_real = true on a
one-page document where no assignment match scores ≥ 0.9, the returned
assignments list is empty but the combined list is NOT empty — refuting
the claim that filtering empties the combined list. -/
theorem c2_counterexample :
    ((extractAssignmentsAndDates c2Cfg (pureDoc [c1Context]) true).1.map
      ExtractOutput.assignments) = .ok [] ∧
    ((extractAssignmentsAndDates c2Cfg (pureDoc [c1Context]) true).1.map
      ExtractOutput.combined) ≠ .ok [] := by
  constructor
  · with_unfolding_all decide
  · with_unfolding_all decide

/-- C2 amended: filtering with filter_real = true removes not-real
assignment matches from the returned assignments list, but
`_find_combined_matches` ignores its assignment/date list parameters and
re-scans the page texts with the raw patterns, so the combined list is
identical with and without filtering (and independent of the match lists
passed in). -/
theorem c2_amended (cfg : ParserConfig) (doc : PDoc) :
    ((extractAssignmentsAndDates cfg doc true).1.map ExtractOutput.combined) =
      ((extractAssignmentsAndDates cfg doc false).1.map ExtractOutput.combined) ∧
    ∀ page_texts a1 d1 a2 d2,
      findCombinedMatches cfg page_texts a1 d1 =
        findCombinedMatches cfg page_texts a2 d2 := by
  constructor
  · unfold extractAssignmentsAndDates
    cases extractPages doc with
    | error e => rfl
    | ok pts => rfl
  · intro page_texts a1 d1 a2 d2
    rfl

/-- C3: the proximity linker is exactly the spec-side formulation
`combinedSpecPage`: per page, each assignment occurrence pairs with the
first date occurrence in scan order whose start-offset distance is
strictly below 300 (at most one combined match per assignment occurrence,
first-found wins), and the emitted match has text "A | D", the clamped
union context window, page number, and the sentinel position. -/
theorem c3_combined_characterization (cfg : ParserConfig)
    (page_texts : List (List Char)) (ams dms : List AMatch) :
    findCombinedMatches cfg page_texts ams dms =
      forPages (combinedSpecPage cfg) 0 page_texts := by
  unfold findCombinedMatches
  have hfg : findCombinedPage cfg = combinedSpecPage cfg := by
    funext pn text
    unfold findCombinedPage combinedSpecPage
    apply List.filterMap_congr
    intro a _
    rw [firstCombined_eq_find]
  rw [hfg]

/-- C4 counterexample: a supplied date match on a DIFFERENT page whose
lower-cased text occurs verbatim in the context does NOT fire the
due-date-proximity signal (the code requires page equality, which the
claim omits). -/
theorem c4_counterexample :
    hasSub (c4Date.text.map lowerCh) (c4Context.map lowerCh) = true ∧
    dueDateScore c4Match.page_number (c4Context.map lowerCh) [c4Date] = 0 := by
  constructor
  · with_unfolding_all decide
  · with_unfolding_all decide

/-- C4 amended: with supplied date matches, the due-date signal is +0.40
exactly when some supplied date match ON THE SAME PAGE has its lower-cased
text verbatim in the context (and it is 0 otherwise); with no supplied
date matches it is +0.40 exactly when the combined date pattern matches
the context. -/
theorem c4_amended (page : Nat) (context : List Char) (dms : List AMatch) :
    (dms ≠ [] →
      ((dueDateScore page context dms = 2/5 ↔
          ∃ d ∈ dms, d.page_number = page ∧
            hasSub (d.text.map lowerCh) context = true) ∧
        (dueDateScore page context dms = 2/5 ∨
          dueDateScore page context dms = 0))) ∧
    (dms = [] → dueDateScore page context dms =
      (if searchDatePattern context then (2:ℚ)/5 else 0)) := by
  constructor
  · intro hne
    have hb : dms.isEmpty = false := by
      cases dms with
      | nil => exact absurd rfl hne
      | cons _ _ => rfl
    unfold dueDateScore
    rw [hb]
    simp only [Bool.not_false, if_true]
    constructor
    · split
      · rename_i hany
        refine iff_of_true rfl ?_
        simp only [List.any_eq_true, Bool.and_eq_true, beq_iff_eq] at hany
        obtain ⟨d, hd, h1, h2⟩ := hany
        exact ⟨d, hd, h1, h2⟩
      · rename_i hany
        refine iff_of_false (by norm_num) ?_
        rintro ⟨d, hd, h1, h2⟩
        exact hany (by
          simp only [List.any_eq_true, Bool.and_eq_true, beq_iff_eq]
          exact ⟨d, hd, h1, h2⟩)
    · split
      · exact Or.inl rfl
      · exact Or.inr rfl
  · intro he
    subst he
    rfl

/-- C4 witness: a same-page date match with verbatim text fires the
signal on the C1 input. -/
theorem c4_witness : dueDateScore 1 c1ContextL [c1Date] = 2/5 :=
  ((c4_amended 1 c1ContextL [c1Date]).1 (by simp)).1.mpr
    ⟨c1Date, by simp, rfl, by decide⟩

/-- C5: the confidence returned by the scorer is the raw signal sum mapped
by (score − (−1.6)) / 3.1 and clamped to [0,1]; it always lies in [0,1]
(out-of-range raw sums are clamped, and the function is total, so no error
is possible). -/
theorem c5_confidence_normalized_clamped (cfg : ParserConfig) (m : AMatch)
    (dates : List AMatch) (threshold? : Option ℚ) :
    (isRealAssignment cfg m dates threshold?).2 =
      max 0 (min 1 ((rawScore m dates + 8/5) / (31/10))) ∧
    0 ≤ (isRealAssignment cfg m dates threshold?).2 ∧
    (isRealAssignment cfg m dates threshold?).2 ≤ 1 := by
  have he : (isRealAssignment cfg m dates threshold?).2 =
      max 0 (min 1 ((rawScore m dates - (-(8/5))) / ((3/2) - (-(8/5))))) := rfl
  have h2 : rawScore m dates - (-(8/5)) = rawScore m dates + 8/5 := by ring
  have h3 : ((3/2 : ℚ) - (-(8/5))) = 31/10 := by norm_num
  refine ⟨?_, ?_, ?_⟩
  · rw [he, h2, h3]
  · rw [he]
    exact le_max_left _ _
  · rw [he]
    exact max_le (by norm_num) (min_le_left _ _)

/-- C6: classification is antitone in the threshold: for a fixed match and
date collection, is_real at threshold 0.9 implies is_real at threshold
0.3; hence raising the threshold from 0.3 to 0.9 never increases the count
of matches classified real. -/
theorem c6_threshold_antitone (cfg : ParserConfig) (dates : List AMatch) :
    (∀ m : AMatch, (isRealAssignment cfg m dates (some (9/10))).1 = true →
        (isRealAssignment cfg m dates (some (3/10))).1 = true) ∧
    (∀ ms : List AMatch,
      ms.countP (fun m => (isRealAssignment cfg m dates (some (9/10))).1) ≤
        ms.countP (fun m => (isRealAssignment cfg m dates (some (3/10))).1)) := by
  have key : ∀ m : AMatch,
      (isRealAssignment cfg m dates (some (9/10))).1 = true →
      (isRealAssignment cfg m dates (some (3/10))).1 = true := by
    intro m h
    have h9 : (isRealAssignment cfg m dates (some (9/10))).1 =
        decide ((9/10 : ℚ) ≤ max 0 (min 1
          ((rawScore m dates - (-(8/5))) / ((3/2) - (-(8/5)))))) := rfl
    have h3 : (isRealAssignment cfg m dates (some (3/10))).1 =
        decide ((3/10 : ℚ) ≤ max 0 (min 1
          ((rawScore m dates - (-(8/5))) / ((3/2) - (-(8/5)))))) := rfl
    rw [h9, decide_eq_true_eq] at h
    rw [h3, decide_eq_true_eq]
    linarith
  exact ⟨key, fun ms => List.countP_mono_left (fun m _ => key m)⟩

/-- C6 witness: a match classified real at threshold 0.9 (confidence
clamps to 1.0) is classified real at threshold 0.3. -/
theorem c6_witness :
    (isRealAssignment ⟨200, 3/5⟩ c6WitnessMatch [] (some (3/10))).1 = true :=
  (c6_threshold_antitone ⟨200, 3/5⟩ []).1 c6WitnessMatch
    (by with_unfolding_all decide)

/-- C7: every Match produced by the match finder (assignment and date
matches alike) has a context containing its matched text as a substring.
This holds unconditionally — in particular away from the page edges, as
the claim states (every pattern alternative starts and ends in a word
character, so the strip in `_extract_context` can never eat into the
matched text, even at a page edge). -/
theorem c7_match_context_contains_text (cfg : ParserConfig) (doc : PDoc)
    (page_texts : List (List Char)) (m : AMatch)
    (hm : m ∈ findAssignments cfg doc page_texts ∨
          m ∈ findDates cfg doc page_texts) :
    hasSub m.text m.context = true := by
  rcases hm with hm | hm
  · unfold findAssignments at hm
    obtain ⟨pn, text, hpage⟩ := mem_forPages hm
    exact findAssignmentsPage_context hpage
  · unfold findDates at hm
    obtain ⟨pn, text, hpage⟩ := mem_forPages hm
    exact findDatesPage_context hpage

/-- C7 witness: the first assignment match of the C1 page. -/
theorem c7_witness :
    hasSub c7WitnessMatch.text c7WitnessMatch.context = true :=
  c7_match_context_contains_text ⟨200, 3/5⟩ (pureDoc [c1Context]) [c1Context]
    c7WitnessMatch (Or.inl (by with_unfolding_all decide))

/-- C8: extraction is total — on any document whose page reads succeed the
extraction returns ok (nothing raises, for any page strings including the
empty string), and a page on which neither pattern has an occurrence
contributes zero assignment, date, and combined matches. -/
theorem c8_total_and_empty_pages (pages : List (List Char))
    (cfg : ParserConfig) (fr : Bool) :
    ((extractAssignmentsAndDates cfg (pureDoc pages) fr).1.isOk = true ∧
      (extractAssignmentsAndDates cfg (pureDoc pages) fr).2 = true) ∧
    (∀ doc : PDoc, ∀ pn : Nat, ∀ text : List Char,
      finditer assignM text = [] → finditer dateM text = [] →
      findAssignmentsPage cfg doc pn text = [] ∧
      findDatesPage cfg doc pn text = [] ∧
      findCombinedPage cfg pn text = []) := by
  constructor
  · unfold extractAssignmentsAndDates
    rw [extractPages_pure]
    exact ⟨rfl, rfl⟩
  · intro doc pn text h1 h2
    refine ⟨?_, ?_, ?_⟩
    · unfold findAssignmentsPage
      rw [h1]
      rfl
    · unfold findDatesPage
      rw [h2]
      rfl
    · unfold findCombinedPage
      rw [h1]
      rfl

/-- C8 witness: the empty page contributes zero matches. -/
theorem c8_witness :
    findAssignmentsPage ⟨200, 1/2⟩ (pureDoc []) 0 [] = [] ∧
    findDatesPage ⟨200, 1/2⟩ (pureDoc []) 0 [] = [] ∧
    findCombinedPage ⟨200, 1/2⟩ 0 [] = [] :=
  (c8_total_and_empty_pages [] ⟨200, 1/2⟩ false).2 (pureDoc []) 0 []
    (by with_unfolding_all decide) (by with_unfolding_all decide)

/-- C9 counterexample: on a document whose page scan raises, the result is
an error AND the handle is not closed — the source has no try/finally, so
the claim that the handle is closed on every exit path fails. -/
theorem c9_counterexample :
    (extractAssignmentsAndDates ⟨200, 1/2⟩ c9BadDoc false).1.isOk = false ∧
    (extractAssignmentsAndDates ⟨200, 1/2⟩ c9BadDoc false).2 = false ∧
    (getAssignmentsWithConfidence ⟨200, 1/2⟩ c9BadDoc).2 = false := by
  refine ⟨rfl, rfl, rfl⟩

/-- C9 amended: in both extraction entry points the document handle is
closed exactly on the non-raising paths: closed ↔ the request returned ok. -/
theorem c9_amended (cfg : ParserConfig) (doc : PDoc) (fr : Bool) :
    ((extractAssignmentsAndDates cfg doc fr).2 = true ↔
      (extractAssignmentsAndDates cfg doc fr).1.isOk = true) ∧
    ((getAssignmentsWithConfidence cfg doc).2 = true ↔
      (getAssignmentsWithConfidence cfg doc).1.isOk = true) := by
  constructor
  · unfold extractAssignmentsAndDates
    cases extractPages doc with
    | error e => simp [Except.isOk, Except.toBool]
    | ok pts => simp [Except.isOk, Except.toBool]
  · unfold getAssignmentsWithConfidence
    cases extractPages doc with
    | error e => simp [Except.isOk, Except.toBool]
    | ok pts => simp [Except.isOk, Except.toBool]

lemma pyStrip_length_le (w : List Char) : (pyStrip w).length ≤ w.length := by
  unfold pyStrip
  rw [List.length_reverse]
  calc ((w.dropWhile isSpaceCh).reverse.dropWhile isSpaceCh).length
      ≤ ((w.dropWhile isSpaceCh).reverse).length := length_dropWhile_le _ _
    _ = (w.dropWhile isSpaceCh).length := List.length_reverse _
    _ ≤ w.length := length_dropWhile_le _ _

/-- C10: the stored context is the clamped window
text[max(0, start − W) : min(len, end + W)] with surrounding whitespace
stripped; consequently it never begins or ends with a whitespace
character, and it can be strictly shorter than the raw clamped window. -/
theorem c10_context_is_stripped_window (W : Nat) (text : List Char)
    (ms me : Nat) :
    extractContext W text ms me =
      pyStrip (pySlice text (ms - W) (min text.length (me + W))) ∧
    (extractContext W text ms me ≠ [] →
      isSpaceCh ((extractContext W text ms me).headD ' ') = false ∧
      isSpaceCh ((extractContext W text ms me).getLastD ' ') = false) ∧
    (extractContext W text ms me).length ≤
      (pySlice text (ms - W) (min text.length (me + W))).length ∧
    (extractContext 2 c10Text 1 2).length < (pySlice c10Text 0 3).length := by
  refine ⟨rfl, ?_, pyStrip_length_le _, by decide⟩
  intro h
  constructor
  · cases hcx : extractContext W text ms me with
    | nil => exact absurd hcx h
    | cons c cs =>
      have hh : (extractContext W text ms me).head? = some c := by
        rw [hcx]; rfl
      have := pyStrip_head_not_space c hh
      exact this
  · obtain ⟨x, hx⟩ := Option.isSome_iff_exists.mp (List.getLast?_isSome.mpr h)
    have hxs : isSpaceCh x = false := pyStrip_getLast_not_space x hx
    have hgd : (extractContext W text ms me).getLastD ' ' = x := by
      rw [List.getLastD_eq_getLast?, hx]
      rfl
    rw [hgd]
    exact hxs

/-- C10 witness: the context of the C1 window is non-empty and
whitespace-trimmed at both ends. -/
theorem c10_witness :
    isSpaceCh ((extractContext 200 c1Context 0 10).headD ' ') = false ∧
    isSpaceCh ((extractContext 200 c1Context 0 10).getLastD ' ') = false :=
  (c10_context_is_stripped_window 200 c1Context 0 10).2.1 (by decide)
